import Mathlib

/-!
Verification of the widget-state reconciliation engine of the pizzaz-shop
widget (`src/pizzaz-shop/index.tsx`): the merge effect, the change detector
built on `JSON.stringify` comparison, and the local edit applier
`adjustQuantity`.

The JavaScript value space reachable in this engine is JSON data: all three
input feeds (`toolInput`, `toolOutput`, `widgetState`) arrive over a JSON
transport and the engine only builds new objects and arrays from their parts.
We embed it as the inductive type `Json` below.  `Json.null` models both
`null` and `undefined` (the engine only ever distinguishes them through `==
null`, `?.` and `??`, which treat the two alike).  Numbers are modelled as
integers: the only arithmetic in the engine is on `quantity`, which the wire
contract declares an integer.
-/

mutual
inductive Json where
  | null
  | bool (b : Bool)
  | num (n : Int)
  | str (s : String)
  | arr (elems : JsonList)
  | obj (fields : JsonFields)

inductive JsonList where
  | nil
  | cons (hd : Json) (tl : JsonList)

inductive JsonFields where
  | nil
  | cons (key : String) (val : Json) (tl : JsonFields)
end

mutual
/-- Structural equality of JSON values.  For the primitive values that occur
as identity keys (`name` is a string under the wire contract) this coincides
with JavaScript SameValueZero equality, the notion used by `Map` keys and
`===`. -/
def Json.beq : Json → Json → Bool
  | .null, .null => true
  | .bool a, .bool b => a == b
  | .num a, .num b => a == b
  | .str a, .str b => a == b
  | .arr a, .arr b => JsonList.beq a b
  | .obj a, .obj b => JsonFields.beq a b
  | _, _ => false

def JsonList.beq : JsonList → JsonList → Bool
  | .nil, .nil => true
  | .cons a as, .cons b bs => Json.beq a b && JsonList.beq as bs
  | _, _ => false

def JsonFields.beq : JsonFields → JsonFields → Bool
  | .nil, .nil => true
  | .cons k v t, .cons k2 v2 t2 => k == k2 && Json.beq v v2 && JsonFields.beq t t2
  | _, _ => false
end

mutual
theorem Json.beq_refl : ∀ j : Json, Json.beq j j = true
  | .null => rfl
  | .bool b => by simp [Json.beq]
  | .num n => by simp [Json.beq]
  | .str s => by simp [Json.beq]
  | .arr xs => by simp [Json.beq, JsonList.beq_refl_list xs]
  | .obj fs => by simp [Json.beq, JsonFields.beq_refl_fields fs]

theorem JsonList.beq_refl_list : ∀ l : JsonList, JsonList.beq l l = true
  | .nil => rfl
  | .cons x tl => by simp [JsonList.beq, Json.beq_refl x, JsonList.beq_refl_list tl]

theorem JsonFields.beq_refl_fields : ∀ fs : JsonFields, JsonFields.beq fs fs = true
  | .nil => rfl
  | .cons k v tl => by simp [JsonFields.beq, Json.beq_refl v, JsonFields.beq_refl_fields tl]
end

mutual
theorem Json.eq_of_beq : ∀ {a b : Json}, Json.beq a b = true → a = b
  | .null, .null, _ => rfl
  | .bool a, .bool b, h => by simp [Json.beq] at h; simp [h]
  | .num a, .num b, h => by simp [Json.beq] at h; simp [h]
  | .str a, .str b, h => by simp [Json.beq] at h; simp [h]
  | .arr a, .arr b, h => by
      simp only [Json.beq] at h
      exact congrArg Json.arr (JsonList.eq_of_beq_list h)
  | .obj a, .obj b, h => by
      simp only [Json.beq] at h
      exact congrArg Json.obj (JsonFields.eq_of_beq_fields h)
  | .null, .bool _, h => by simp [Json.beq] at h
  | .null, .num _, h => by simp [Json.beq] at h
  | .null, .str _, h => by simp [Json.beq] at h
  | .null, .arr _, h => by simp [Json.beq] at h
  | .null, .obj _, h => by simp [Json.beq] at h
  | .bool _, .null, h => by simp [Json.beq] at h
  | .bool _, .num _, h => by simp [Json.beq] at h
  | .bool _, .str _, h => by simp [Json.beq] at h
  | .bool _, .arr _, h => by simp [Json.beq] at h
  | .bool _, .obj _, h => by simp [Json.beq] at h
  | .num _, .null, h => by simp [Json.beq] at h
  | .num _, .bool _, h => by simp [Json.beq] at h
  | .num _, .str _, h => by simp [Json.beq] at h
  | .num _, .arr _, h => by simp [Json.beq] at h
  | .num _, .obj _, h => by simp [Json.beq] at h
  | .str _, .null, h => by simp [Json.beq] at h
  | .str _, .bool _, h => by simp [Json.beq] at h
  | .str _, .num _, h => by simp [Json.beq] at h
  | .str _, .arr _, h => by simp [Json.beq] at h
  | .str _, .obj _, h => by simp [Json.beq] at h
  | .arr _, .null, h => by simp [Json.beq] at h
  | .arr _, .bool _, h => by simp [Json.beq] at h
  | .arr _, .num _, h => by simp [Json.beq] at h
  | .arr _, .str _, h => by simp [Json.beq] at h
  | .arr _, .obj _, h => by simp [Json.beq] at h
  | .obj _, .null, h => by simp [Json.beq] at h
  | .obj _, .bool _, h => by simp [Json.beq] at h
  | .obj _, .num _, h => by simp [Json.beq] at h
  | .obj _, .str _, h => by simp [Json.beq] at h
  | .obj _, .arr _, h => by simp [Json.beq] at h

theorem JsonList.eq_of_beq_list : ∀ {a b : JsonList}, JsonList.beq a b = true → a = b
  | .nil, .nil, _ => rfl
  | .cons a as, .cons b bs, h => by
      simp only [JsonList.beq, Bool.and_eq_true] at h
      rw [Json.eq_of_beq h.1, JsonList.eq_of_beq_list h.2]
  | .nil, .cons _ _, h => by simp [JsonList.beq] at h
  | .cons _ _, .nil, h => by simp [JsonList.beq] at h

theorem JsonFields.eq_of_beq_fields : ∀ {a b : JsonFields}, JsonFields.beq a b = true → a = b
  | .nil, .nil, _ => rfl
  | .cons k v t, .cons k2 v2 t2, h => by
      simp only [JsonFields.beq, Bool.and_eq_true] at h
      rw [eq_of_beq h.1.1, Json.eq_of_beq h.1.2, JsonFields.eq_of_beq_fields h.2]
  | .nil, .cons _ _ _, h => by simp [JsonFields.beq] at h
  | .cons _ _ _, .nil, h => by simp [JsonFields.beq] at h
end

instance : DecidableEq Json := fun a b =>
  if h : Json.beq a b = true then isTrue (Json.eq_of_beq h)
  else isFalse (fun he => h (he ▸ Json.beq_refl a))

instance : DecidableEq JsonList := fun a b =>
  if h : JsonList.beq a b = true then isTrue (JsonList.eq_of_beq_list h)
  else isFalse (fun he => h (he ▸ JsonList.beq_refl_list a))

instance : DecidableEq JsonFields := fun a b =>
  if h : JsonFields.beq a b = true then isTrue (JsonFields.eq_of_beq_fields h)
  else isFalse (fun he => h (he ▸ JsonFields.beq_refl_fields a))

/-- Conversion from the mutual-inductive list of JSON values to `List`. -/
def JsonList.toList : JsonList → List Json
  | .nil => []
  | .cons x tl => x :: tl.toList

def JsonList.ofList : List Json → JsonList
  | [] => .nil
  | x :: tl => .cons x (JsonList.ofList tl)

theorem JsonList.toList_ofList_list (l : List Json) : (JsonList.ofList l).toList = l := by
  induction l with
  | nil => rfl
  | cons x tl ih => simp [JsonList.ofList, JsonList.toList, ih]

/-- Conversion from the mutual-inductive field list to an association list. -/
def JsonFields.toList : JsonFields → List (String × Json)
  | .nil => []
  | .cons k v tl => (k, v) :: tl.toList

def JsonFields.ofList : List (String × Json) → JsonFields
  | [] => .nil
  | (k, v) :: tl => .cons k v (JsonFields.ofList tl)

theorem JsonFields.toList_ofList_fields (l : List (String × Json)) :
    (JsonFields.ofList l).toList = l := by
  induction l with
  | nil => rfl
  | cons p tl ih => cases p; simp [JsonFields.ofList, JsonFields.toList, ih]

/-- One hexadecimal digit, used by `JSON.stringify` control-character escapes. -/
def hexDigit (n : Nat) : Char :=
  if n < 10 then Char.ofNat (48 + n) else Char.ofNat (87 + n)

/-- `JSON.stringify` escaping of a single character inside a string literal. -/
def escapeChar (c : Char) : String :=
  if c = '"' then "\\\""
  else if c = '\\' then "\\\\"
  else if c = '\n' then "\\n"
  else if c = '\r' then "\\r"
  else if c = '\t' then "\\t"
  else if c = '\x08' then "\\b"
  else if c = '\x0c' then "\\f"
  else if c.toNat < 32 then
    "\\u00" ++ String.mk [hexDigit (c.toNat / 16), hexDigit (c.toNat % 16)]
  else String.singleton c

/-- `JSON.stringify` rendering of a string literal, quotes included. -/
def quoteJson (s : String) : String :=
  "\"" ++ String.join (s.data.map escapeChar) ++ "\""

mutual
/-- The canonical serialization `JSON.stringify(v)` (no spacing argument), as
used by the change detector at lines 110 and 157 of `pizzaz-shop/index.tsx`.
All values the engine serializes are objects built from JSON feed data, so
serialization is total here; the separate `JsVal` development below extends
the value space with values on which `JSON.stringify` throws. -/
def Json.stringify : Json → String
  | .null => "null"
  | .bool true => "true"
  | .bool false => "false"
  | .num n => toString n
  | .str s => quoteJson s
  | .arr xs => "[" ++ JsonList.stringify xs ++ "]"
  | .obj fs => "\x7b" ++ JsonFields.stringify fs ++ "\x7d"

def JsonList.stringify : JsonList → String
  | .nil => ""
  | .cons x .nil => Json.stringify x
  | .cons x (.cons y tl) => Json.stringify x ++ "," ++ JsonList.stringify (.cons y tl)

def JsonFields.stringify : JsonFields → String
  | .nil => ""
  | .cons k v .nil => quoteJson k ++ ":" ++ Json.stringify v
  | .cons k v (.cons k2 v2 tl) =>
      quoteJson k ++ ":" ++ Json.stringify v ++ "," ++ JsonFields.stringify (.cons k2 v2 tl)
end

/-! ## JavaScript value helpers

Shallow semantic helpers for the JavaScript constructs the engine uses:
truthiness, `== null`, `typeof v === "object"`, property access, object
spread, and object-literal property update. -/

/-- JavaScript truthiness of a value (`NaN` does not arise: numbers here are
integers per the wire contract). -/
def truthy : Json → Bool
  | .null => false
  | .bool b => b
  | .num n => n != 0
  | .str s => s != ""
  | .arr _ => true
  | .obj _ => true

/-- `v == null` (loose equality): true exactly for `null`/`undefined`, both of
which are modelled by `Json.null`. -/
def isNullJ : Json → Bool
  | .null => true
  | _ => false

/-- `typeof v === "object"`: true for objects, arrays and `null`. -/
def typeofObject : Json → Bool
  | .null => true
  | .arr _ => true
  | .obj _ => true
  | _ => false

def isObjJ : Json → Bool
  | .obj _ => true
  | _ => false

/-- First-occurrence lookup in an association list of object fields.  A real
JavaScript object has no duplicate keys, so first-occurrence agrees with the
object's single binding. -/
def lookupField : List (String × Json) → String → Option Json
  | [], _ => none
  | (k, v) :: tl, key => if k = key then some v else lookupField tl key

/-- Property access `v.k` / `v?.k`: a field of an object, `undefined`
(`none`) otherwise.  Arrays and strings have no named own-properties other
than indices, and primitive property access yields `undefined` rather than
throwing. -/
def getField (j : Json) (key : String) : Option Json :=
  match j with
  | .obj fs => lookupField fs.toList key
  | _ => none

/-- Index-keyed fields produced when an array (or string) is spread into an
object literal: `(spread [7]) = (0 : 7)` with string keys. -/
def enumFields (xs : List Json) : List (String × Json) :=
  (List.range xs.length).zip xs |>.map (fun p => (toString p.1, p.2))

/-- The own enumerable fields contributed by `(spread v)` inside an object
literal: an object's fields, an array's (or string's) index-keyed elements,
and nothing for primitives and `null`/`undefined`. -/
def jsSpreadFields : Json → List (String × Json)
  | .obj fs => fs.toList
  | .arr xs => enumFields xs.toList
  | .str s => enumFields (s.data.map (fun c => Json.str (String.singleton c)))
  | _ => []

/-- Object-literal property update `(spread fs, key: v)`: if `key` is already
present its binding is updated in place, otherwise the property is appended. -/
def setKey : List (String × Json) → String → Json → List (String × Json)
  | [], key, v => [(key, v)]
  | (k, w) :: tl, key, v =>
      if k = key then (k, v) :: tl else (k, w) :: setKey tl key v

/-- JavaScript object spread `(spread a, spread b)`: the fields of `a` in
order with values overridden by `b` where keys collide, followed by the
fields of `b` whose keys are new. -/
def spreadFields (a b : List (String × Json)) : List (String × Json) :=
  a.map (fun p => (p.1, (lookupField b p.1).getD p.2)) ++
    b.filter (fun p => (lookupField a p.1).isNone)

/-! ## JavaScript `Map` model

`Map<string, CartItem>` with insertion-order iteration.  `set` on an existing
key updates the value in place keeping the original key and position; on a
new key it appends.  Key equality is SameValueZero; identity keys are strings
under the wire contract, for which SameValueZero is value equality, modelled
by structural `Json.beq`. -/

abbrev JsMap := List (Json × Json)

def mapGet : JsMap → Json → Option Json
  | [], _ => none
  | (k, v) :: tl, key => if Json.beq k key then some v else mapGet tl key

def mapSet : JsMap → Json → Json → JsMap
  | [], key, v => [(key, v)]
  | (k, w) :: tl, key, v =>
      if Json.beq k key then (k, v) :: tl else (k, w) :: mapSet tl key v

/-- `Array.from(m.values())`. -/
def mapValues (m : JsMap) : List Json := m.map Prod.snd

def mapKeys (m : JsMap) : List Json := m.map Prod.fst

/-- Abbreviation for building object literals in statements and examples. -/
def mkObj (fs : List (String × Json)) : Json := .obj (.ofList fs)

/-- Abbreviation for building array literals in statements and examples. -/
def mkArr (xs : List Json) : Json := .arr (.ofList xs)

/-! ## The reconciliation engine (`src/pizzaz-shop/index.tsx`)

`Feeds` bundles the three host-supplied globals the merge effect reads;
`EngineState` is the engine's own mutable state: the committed-marker ref
`lastMergedStateRef` (a string) and the local React cart state `cartState`.
The merge effect (lines 115-172) is embedded as the pure transition
`mergeEffect : Feeds → EngineState → EngineState × Bool`, the boolean
recording whether `setCartState` was invoked (a publish). -/

structure Feeds where
  toolInput : Json
  toolOutput : Json
  widgetState : Json
deriving DecidableEq

structure EngineState where
  marker : String
  cart : Json
deriving DecidableEq

/-- `item?.name`, the identity key of an item: the `name` field when the item
is an object that has one, `undefined` (modelled `Json.null`) otherwise. -/
def itemName (item : Json) : Json :=
  match getField item "name" with
  | some v => v
  | none => .null

/-- Truthiness of `item?.name`, the guard both identity-map loops apply
(lines 144 and 149). -/
def itemNameTruthy (item : Json) : Bool := truthy (itemName item)

/-- `(current.quantity ?? 0)`: the quantity field of an item, with
`null`/`undefined`/absent coalescing to `0`.  Under the Item wire contract
`quantity` is an integer when present; non-numeric quantities are outside the
contract and also read as `0` here. -/
def jsQuantity (item : Json) : Int :=
  match getField item "quantity" with
  | some (.num n) => n
  | _ => 0

/-- `Array.isArray(s.items) ? s.items : []`, the item collection of a state
(lines 66, 76-78 and 140). -/
def stateItems (j : Json) : List Json :=
  match getField j "items" with
  | some (.arr l) => l.toList
  | _ => []

/-- The shallow copy `(spread item)` taken of each entry before a local edit
(line 77). -/
def copyItem (item : Json) : Json := .obj (.ofList (jsSpreadFields item))

/-- Source Multiplexer for the partial-input feed (lines 130-134):
`Array.isArray(toolInput?.items) ? toolInput.items : []`.  Total: malformed
shapes (null input, primitive input, missing or non-array `items`) degrade to
the empty list. -/
def incomingItems (toolInput : Json) : List Json :=
  match getField toolInput "items" with
  | some (.arr l) => l.toList
  | _ => []

/-- Base-state selection of the merge effect (lines 136-139):
`widgetState && typeof widgetState === "object" ? widgetState
 : cartState ?? (items: [])`. -/
def baseStateOf (widgetState cartState : Json) : Json :=
  if truthy widgetState && typeofObject widgetState then widgetState
  else if isNullJ cartState then mkObj [("items", mkArr [])] else cartState

/-- `widgetStateEqual` (lines 101-111): loose-null aware `JSON.stringify`
comparison. -/
def widgetStateEqual (a b : Json) : Bool :=
  if isNullJ a && isNullJ b then true
  else if isNullJ a || isNullJ b then false
  else Json.stringify a == Json.stringify b

/-- First identity-map loop (lines 142-147): index the base items by `name`,
skipping entries whose `name` is falsy. -/
def baseMapStep (m : JsMap) (item : Json) : JsMap :=
  if itemNameTruthy item then mapSet m (itemName item) item else m

def itemsByNameOf (baseItems : List Json) : JsMap :=
  baseItems.foldl baseMapStep []

/-- `(spread m.get(k), spread item)` with `m.get` possibly `undefined`:
fields contributed by the optional existing entry. -/
def optFields : Option Json → List (String × Json)
  | none => []
  | some j => jsSpreadFields j

/-- Second identity-map loop, one item (lines 148-152):
`m.set(item.name, (spread m.get(item.name), spread item))` for items with a
truthy `name`. -/
def overlayStep (m : JsMap) (item : Json) : JsMap :=
  if itemNameTruthy item then
    mapSet m (itemName item)
      (.obj (.ofList (spreadFields (optFields (mapGet m (itemName item))) (jsSpreadFields item))))
  else m

def overlayMap (m : JsMap) (incoming : List Json) : JsMap :=
  incoming.foldl overlayStep m

/-- The computed next state of the merge effect (lines 140-155):
`(spread baseState, items: Array.from(itemsByName.values()))`. -/
def mergeNextState (baseState : Json) (incoming : List Json) : Json :=
  .obj (.ofList (setKey (jsSpreadFields baseState) "items"
    (.arr (.ofList (mapValues (overlayMap (itemsByNameOf (stateItems baseState)) incoming))))))

/-- Forced-resync flag (line 158):
`widgetState == null && toolOutput != null`. -/
def shouldForceSyncFromResponse (f : Feeds) : Bool :=
  isNullJ f.widgetState && !isNullJ f.toolOutput

/-- Early-return guard of the merge effect (lines 119-121):
`toolInput == null && toolOutput == null && widgetState == null`. -/
def allFeedsNull (f : Feeds) : Bool :=
  isNullJ f.toolInput && isNullJ f.toolOutput && isNullJ f.widgetState

/-- The local `nextState` computed by the merge effect from the feeds and the
current cart (lines 130-155). -/
def computedNextState (f : Feeds) (s : EngineState) : Json :=
  mergeNextState (baseStateOf f.widgetState s.cart) (incomingItems f.toolInput)

/-- The merge effect (lines 115-172) as a state transition.  Returns the new
engine state and whether `setCartState` was called (the publish).  Skipping
at the marker comparison leaves both the marker and the cart untouched;
passing it always updates the marker, and publishes unless the computed state
is `widgetStateEqual` to the current cart (that comparison is bypassed when
`shouldForceSyncFromResponse`). -/
def mergeEffect (f : Feeds) (s : EngineState) : EngineState × Bool :=
  if allFeedsNull f then (s, false)
  else if !shouldForceSyncFromResponse f
      && (Json.stringify (computedNextState f s) == s.marker) then (s, false)
  else if shouldForceSyncFromResponse f || !widgetStateEqual (computedNextState f s) s.cart then
    ({ marker := Json.stringify (computedNextState f s), cart := computedNextState f s }, true)
  else
    ({ marker := Json.stringify (computedNextState f s), cart := s.cart }, false)

/-- `prevState ?? ` empty object (line 75). -/
def editBaseState (prevState : Json) : Json :=
  if isNullJ prevState then Json.obj .nil else prevState

/-- The working array of the updater (lines 76-78): the base items, each
shallow-copied. -/
def editItems (prevState : Json) : List Json :=
  (stateItems (editBaseState prevState)).map copyItem

/-- `Math.max(0, (current.quantity ?? 0) + delta)` (line 88). -/
def nextQuantityOf (current : Json) (delta : Int) : Int :=
  max 0 (jsQuantity current + delta)

/-- The `setCartState` updater of `adjustQuantity` (lines 74-98), applied to
the previous cart state: find the entry by `name` (strict string equality);
missing entries leave the base state untouched; at quantity zero the entry is
spliced out, otherwise replaced by a copy with the new quantity. -/
def adjustQuantityUpdate (prevState : Json) (name : String) (delta : Int) : Json :=
  match (editItems prevState).findIdx? (fun item => Json.beq (itemName item) (.str name)) with
  | none => editBaseState prevState
  | some idx =>
      if nextQuantityOf ((editItems prevState).getD idx .null) delta == 0 then
        Json.obj (.ofList (setKey (jsSpreadFields (editBaseState prevState)) "items"
          (.arr (.ofList ((editItems prevState).eraseIdx idx)))))
      else
        Json.obj (.ofList (setKey (jsSpreadFields (editBaseState prevState)) "items"
          (.arr (.ofList ((editItems prevState).set idx
            (Json.obj (.ofList (setKey
              (jsSpreadFields ((editItems prevState).getD idx .null)) "quantity"
              (.num (nextQuantityOf ((editItems prevState).getD idx .null) delta))))))))))

/-- The observable effect of calling `adjustQuantity(name, delta)` on the cart
state (lines 68-99): the guard `!name || delta === 0` returns without calling
`setCartState` (state unchanged); otherwise the updater above runs. -/
def adjustQuantity (prevState : Json) (name : String) (delta : Int) : Json :=
  if name == "" || delta == 0 then prevState
  else adjustQuantityUpdate prevState name delta

/-- Initial engine state (lines 59-65 and 113): the `useWidgetState`
initializer seeds the cart from a truthy object-typed `widgetState`, else
with `(items: [])`; the marker ref starts at the sentinel string. -/
def initState (widgetState : Json) : EngineState :=
  { marker := "__cart_merge_unset__"
    cart := if truthy widgetState && typeofObject widgetState then widgetState
            else mkObj [("items", mkArr [])] }

/-! ## Association-list lemmas for object fields -/

theorem lookupField_append (a b : List (String × Json)) (k : String) :
    lookupField (a ++ b) k =
      match lookupField a k with
      | some v => some v
      | none => lookupField b k := by
  induction a with
  | nil => simp [lookupField]
  | cons p tl ih =>
      obtain ⟨kh, vh⟩ := p
      by_cases hk : kh = k
      · simp [lookupField, hk]
      · simp [lookupField, hk, ih]

theorem lookupField_map_update (a b : List (String × Json)) (k : String) :
    lookupField (a.map (fun p => (p.1, (lookupField b p.1).getD p.2))) k
      = (lookupField a k).map (fun v => (lookupField b k).getD v) := by
  induction a with
  | nil => simp [lookupField]
  | cons p tl ih =>
      obtain ⟨kh, vh⟩ := p
      by_cases hk : kh = k
      · subst hk; simp [lookupField]
      · simp [lookupField, hk, ih]

theorem lookupField_filter_none (a b : List (String × Json)) (k : String) :
    lookupField (b.filter (fun p => (lookupField a p.1).isNone)) k
      = if lookupField a k = none then lookupField b k else none := by
  induction b with
  | nil => simp [lookupField]
  | cons p tl ih =>
      obtain ⟨kh, vh⟩ := p
      cases ha : lookupField a kh with
      | none =>
          rw [List.filter_cons_of_pos (by simp [ha])]
          by_cases hk : kh = k
          · subst hk
            simp [lookupField, ha]
          · simp [lookupField, hk, ih]
      | some w =>
          rw [List.filter_cons_of_neg (by simp [ha])]
          rw [ih]
          by_cases hk : kh = k
          · subst hk
            simp [ha]
          · split <;> simp [lookupField, hk]

theorem lookupField_spreadFields (a b : List (String × Json)) (k : String) :
    lookupField (spreadFields a b) k =
      match lookupField b k with
      | some v => some v
      | none => lookupField a k := by
  rw [spreadFields, lookupField_append, lookupField_map_update, lookupField_filter_none]
  cases ha : lookupField a k <;> cases hb : lookupField b k <;> simp [ha, hb]

theorem spreadFields_nil_left (b : List (String × Json)) : spreadFields [] b = b := by
  simp [spreadFields, lookupField]

theorem lookupField_setKey_self (fs : List (String × Json)) (k : String) (v : Json) :
    lookupField (setKey fs k v) k = some v := by
  induction fs with
  | nil => simp [setKey, lookupField]
  | cons p tl ih =>
      obtain ⟨kh, vh⟩ := p
      by_cases hk : kh = k
      · simp [setKey, hk, lookupField]
      · simp [setKey, hk, lookupField, ih]

theorem lookupField_setKey_ne (fs : List (String × Json)) (k k2 : String) (v : Json)
    (h : k2 ≠ k) :
    lookupField (setKey fs k v) k2 = lookupField fs k2 := by
  induction fs with
  | nil => simp [setKey, lookupField, Ne.symm h]
  | cons p tl ih =>
      obtain ⟨kh, vh⟩ := p
      by_cases hk : kh = k
      · subst hk
        simp [setKey, lookupField, Ne.symm h]
      · simp [setKey, hk, lookupField, ih]

theorem setKey_setKey (fs : List (String × Json)) (k : String) (v w : Json) :
    setKey (setKey fs k v) k w = setKey fs k w := by
  induction fs with
  | nil => simp [setKey]
  | cons p tl ih =>
      obtain ⟨kh, vh⟩ := p
      by_cases hk : kh = k
      · simp [setKey, hk]
      · simp [setKey, hk, ih]

theorem setKey_eq_self (fs : List (String × Json)) (k : String) (v : Json)
    (h : lookupField fs k = some v) : setKey fs k v = fs := by
  induction fs with
  | nil => simp [lookupField] at h
  | cons p tl ih =>
      obtain ⟨kh, vh⟩ := p
      by_cases hk : kh = k
      · subst hk
        simp [lookupField] at h
        simp [setKey, h]
      · simp [lookupField, hk] at h
        simp [setKey, hk, ih h]

theorem lookupField_eq_none_iff (fs : List (String × Json)) (k : String) :
    lookupField fs k = none ↔ k ∉ fs.map Prod.fst := by
  induction fs with
  | nil => simp [lookupField]
  | cons p tl ih =>
      obtain ⟨kh, vh⟩ := p
      by_cases hk : kh = k
      · simp [lookupField, hk]
      · simp [lookupField, hk, ih, Ne.symm hk]

theorem lookupField_of_mem_nodup (fs : List (String × Json)) (k : String) (v : Json)
    (hnd : (fs.map Prod.fst).Nodup) (hmem : (k, v) ∈ fs) :
    lookupField fs k = some v := by
  induction fs with
  | nil => simp at hmem
  | cons p tl ih =>
      obtain ⟨kh, vh⟩ := p
      rw [List.map_cons, List.nodup_cons] at hnd
      rcases List.mem_cons.1 hmem with he | htl
      · cases he
        simp [lookupField]
      · have hk : kh ≠ k := by
          intro he
          subst he
          have hm : (kh, v).1 ∈ tl.map Prod.fst := List.mem_map_of_mem Prod.fst htl
          exact hnd.1 hm
        simp [lookupField, hk, ih hnd.2 htl]

theorem isSome_lookupField_of_mem (fs : List (String × Json)) (k : String) (v : Json)
    (hmem : (k, v) ∈ fs) : (lookupField fs k).isSome := by
  induction fs with
  | nil => simp at hmem
  | cons p tl ih =>
      obtain ⟨kh, vh⟩ := p
      by_cases hk : kh = k
      · simp [lookupField, hk]
      · rcases List.mem_cons.1 hmem with he | htl
        · cases he
          simp at hk
        · simp [lookupField, hk, ih htl]

/-! ## Algebra of object spread

`spreadFields` is associative, and re-spreading the same object is absorbed.
These drive the idempotence of the merge overlay. -/

theorem filter_map_key_comm (l : List (String × Json)) (g : String → Json → Json)
    (p : String → Bool) :
    (l.map (fun q => (q.1, g q.1 q.2))).filter (fun q => p q.1)
      = (l.filter (fun q => p q.1)).map (fun q => (q.1, g q.1 q.2)) := by
  induction l with
  | nil => simp
  | cons q tl ih =>
      obtain ⟨kq, vq⟩ := q
      by_cases hp : p kq
      · simp [hp, ih]
      · simp [hp, ih]

theorem filter_and_eq_filter_filter (l : List (String × Json)) (p q : String × Json → Bool) :
    l.filter (fun x => p x && q x) = (l.filter p).filter q := by
  induction l with
  | nil => simp
  | cons x tl ih =>
      by_cases hp : p x
      · by_cases hq : q x
        · simp [hp, hq, ih]
        · simp [hp, hq, ih]
      · simp [hp, ih]

theorem map_congr_mem {α β : Type} (l : List α) (f g : α → β)
    (h : ∀ a ∈ l, f a = g a) : l.map f = l.map g := by
  induction l with
  | nil => rfl
  | cons x tl ih =>
      simp only [List.map_cons, h x (List.mem_cons_self x tl)]
      rw [ih (fun a ha => h a (List.mem_cons_of_mem x ha))]

theorem filter_congr_mem {α : Type} (l : List α) (p q : α → Bool)
    (h : ∀ a ∈ l, p a = q a) : l.filter p = l.filter q := by
  induction l with
  | nil => rfl
  | cons x tl ih =>
      rw [List.filter_cons, List.filter_cons, h x (List.mem_cons_self x tl),
        ih (fun a ha => h a (List.mem_cons_of_mem x ha))]

theorem filter_eq_nil_of_all_false {α : Type} (l : List α) (p : α → Bool)
    (h : ∀ a ∈ l, p a = false) : l.filter p = [] := by
  induction l with
  | nil => rfl
  | cons x tl ih =>
      rw [List.filter_cons, h x (List.mem_cons_self x tl)]
      exact ih (fun a ha => h a (List.mem_cons_of_mem x ha))

theorem map_fst_spreadFields (a b : List (String × Json)) :
    (spreadFields a b).map Prod.fst
      = a.map Prod.fst ++ (b.filter (fun p => (lookupField a p.1).isNone)).map Prod.fst := by
  simp [spreadFields, List.map_map]

theorem nodup_map_fst_spreadFields (a b : List (String × Json))
    (ha : (a.map Prod.fst).Nodup) (hb : (b.map Prod.fst).Nodup) :
    ((spreadFields a b).map Prod.fst).Nodup := by
  rw [map_fst_spreadFields, List.nodup_append]
  refine ⟨ha, ?_, ?_⟩
  · exact ((b.filter_sublist).map Prod.fst).nodup hb
  · intro k hka hkb
    obtain ⟨q, hqmem, hqk⟩ := List.mem_map.1 hkb
    have hnone := (List.mem_filter.1 hqmem).2
    rw [Option.isNone_iff_eq_none] at hnone
    have : q.1 ∉ a.map Prod.fst := (lookupField_eq_none_iff a q.1).1 hnone
    exact this (hqk ▸ hka)

theorem spreadFields_assoc (a b c : List (String × Json)) :
    spreadFields (spreadFields a b) c = spreadFields a (spreadFields b c) := by
  have h1 : (a.map (fun p => (p.1, (lookupField b p.1).getD p.2))).map
        (fun p => (p.1, (lookupField c p.1).getD p.2))
      = a.map (fun p => (p.1, (lookupField (spreadFields b c) p.1).getD p.2)) := by
    rw [List.map_map]
    refine map_congr_mem _ _ _ (fun q _ => ?_)
    show (q.1, (lookupField c q.1).getD ((lookupField b q.1).getD q.2))
        = (q.1, (lookupField (spreadFields b c) q.1).getD q.2)
    rw [lookupField_spreadFields]
    cases lookupField c q.1 <;> cases lookupField b q.1 <;> simp
  have h2 : (b.filter (fun p => (lookupField a p.1).isNone)).map
        (fun p => (p.1, (lookupField c p.1).getD p.2))
      = (b.map (fun p => (p.1, (lookupField c p.1).getD p.2))).filter
          (fun p => (lookupField a p.1).isNone) := by
    exact (filter_map_key_comm b (fun k v => (lookupField c k).getD v)
      (fun k => (lookupField a k).isNone)).symm
  have h3 : c.filter (fun p => (lookupField (spreadFields a b) p.1).isNone)
      = (c.filter (fun p => (lookupField b p.1).isNone)).filter
          (fun p => (lookupField a p.1).isNone) := by
    rw [← filter_and_eq_filter_filter]
    refine filter_congr_mem _ _ _ (fun q _ => ?_)
    rw [lookupField_spreadFields]
    cases lookupField b q.1 <;> cases lookupField a q.1 <;> simp
  have h4 : (spreadFields b c).filter (fun p => (lookupField a p.1).isNone)
      = (b.map (fun p => (p.1, (lookupField c p.1).getD p.2))).filter
          (fun p => (lookupField a p.1).isNone)
        ++ (c.filter (fun p => (lookupField b p.1).isNone)).filter
          (fun p => (lookupField a p.1).isNone) := by
    rw [show spreadFields b c
        = b.map (fun p => (p.1, (lookupField c p.1).getD p.2)) ++
            c.filter (fun p => (lookupField b p.1).isNone) from rfl]
    rw [List.filter_append]
  show (spreadFields a b).map (fun p => (p.1, (lookupField c p.1).getD p.2))
      ++ c.filter (fun p => (lookupField (spreadFields a b) p.1).isNone)
    = a.map (fun p => (p.1, (lookupField (spreadFields b c) p.1).getD p.2))
      ++ (spreadFields b c).filter (fun p => (lookupField a p.1).isNone)
  rw [h3]
  rw [show spreadFields a b
      = a.map (fun p => (p.1, (lookupField b p.1).getD p.2)) ++
          b.filter (fun p => (lookupField a p.1).isNone) from rfl]
  rw [List.map_append, h1, h2, h4, List.append_assoc]

theorem spreadFields_absorb (a b : List (String × Json))
    (hb : (b.map Prod.fst).Nodup) :
    spreadFields (spreadFields a b) b = spreadFields a b := by
  have hfil : b.filter (fun p => (lookupField (spreadFields a b) p.1).isNone) = [] := by
    refine filter_eq_nil_of_all_false _ _ (fun q hq => ?_)
    rw [lookupField_spreadFields]
    have : (lookupField b q.1).isSome := by
      obtain ⟨k, v⟩ := q
      exact isSome_lookupField_of_mem b k v hq
    obtain ⟨w, hw⟩ := Option.isSome_iff_exists.1 this
    simp [hw]
  have hmap : (spreadFields a b).map (fun p => (p.1, (lookupField b p.1).getD p.2))
      = spreadFields a b := by
    rw [show spreadFields a b
        = a.map (fun p => (p.1, (lookupField b p.1).getD p.2)) ++
            b.filter (fun p => (lookupField a p.1).isNone) from rfl]
    rw [List.map_append, List.map_map]
    have hA : a.map ((fun p : String × Json => (p.1, (lookupField b p.1).getD p.2)) ∘
          (fun p : String × Json => (p.1, (lookupField b p.1).getD p.2)))
        = a.map (fun p => (p.1, (lookupField b p.1).getD p.2)) := by
      refine map_congr_mem _ _ _ (fun q _ => ?_)
      show (q.1, (lookupField b q.1).getD ((lookupField b q.1).getD q.2)) = _
      cases lookupField b q.1 <;> simp
    have hB : (b.filter (fun p => (lookupField a p.1).isNone)).map
          (fun p => (p.1, (lookupField b p.1).getD p.2))
        = b.filter (fun p => (lookupField a p.1).isNone) := by
      have hco : ∀ q ∈ b.filter (fun p => (lookupField a p.1).isNone),
          (fun p : String × Json => (p.1, (lookupField b p.1).getD p.2)) q = id q := by
        intro q hq
        obtain ⟨k, v⟩ := q
        have hmem : (k, v) ∈ b := List.mem_of_mem_filter hq
        show (k, (lookupField b k).getD v) = (k, v)
        rw [lookupField_of_mem_nodup b k v hb hmem]
        rfl
      rw [map_congr_mem _ _ _ hco, List.map_id]
    rw [hA, hB]
  show (spreadFields a b).map _ ++ _ = _
  rw [hfil, hmap, List.append_nil]

theorem foldl_spreadFields_assoc (l : List (List (String × Json)))
    (x y : List (String × Json)) :
    l.foldl spreadFields (spreadFields x y) = spreadFields x (l.foldl spreadFields y) := by
  induction l generalizing y with
  | nil => simp
  | cons z tl ih =>
      show tl.foldl spreadFields (spreadFields (spreadFields x y) z) = _
      rw [spreadFields_assoc, ih]
      rfl

theorem nodup_keys_foldl_spread (l : List (List (String × Json)))
    (f : List (String × Json)) (hf : (f.map Prod.fst).Nodup)
    (hl : ∀ g ∈ l, (g.map Prod.fst).Nodup) :
    ((l.foldl spreadFields f).map Prod.fst).Nodup := by
  induction l generalizing f with
  | nil => exact hf
  | cons z tl ih =>
      exact ih (spreadFields f z)
        (nodup_map_fst_spreadFields f z hf (hl z (List.mem_cons_self z tl)))
        (fun g hg => hl g (List.mem_cons_of_mem z hg))

theorem foldl_spread_absorb (l : List (List (String × Json)))
    (f : List (String × Json)) (hl : ∀ g ∈ l, (g.map Prod.fst).Nodup) :
    l.foldl spreadFields (l.foldl spreadFields f) = l.foldl spreadFields f := by
  cases l with
  | nil => rfl
  | cons a tl =>
      have hm : ((tl.foldl spreadFields a).map Prod.fst).Nodup :=
        nodup_keys_foldl_spread tl a (hl a (List.mem_cons_self a tl))
          (fun g hg => hl g (List.mem_cons_of_mem a hg))
      show tl.foldl spreadFields
          (spreadFields ((a :: tl).foldl spreadFields f) a) = _
      have hF : (a :: tl).foldl spreadFields f
          = spreadFields f (tl.foldl spreadFields a) := by
        show tl.foldl spreadFields (spreadFields f a) = _
        rw [foldl_spreadFields_assoc]
      rw [hF, foldl_spreadFields_assoc]
      exact spreadFields_absorb f (tl.foldl spreadFields a) hm

/-! ## Lemmas about the `Map` model -/

theorem Json.beq_eq_true_iff (a b : Json) : Json.beq a b = true ↔ a = b :=
  ⟨Json.eq_of_beq, fun h => h ▸ Json.beq_refl a⟩

theorem Json.beq_eq_false_of_ne {a b : Json} (h : a ≠ b) : Json.beq a b = false := by
  cases hb : Json.beq a b
  · rfl
  · exact absurd (Json.eq_of_beq hb) h

theorem mapGet_mapSet_self (m : JsMap) (k v : Json) :
    mapGet (mapSet m k v) k = some v := by
  induction m with
  | nil => simp [mapSet, mapGet, Json.beq_refl]
  | cons p tl ih =>
      obtain ⟨kh, vh⟩ := p
      cases hb : Json.beq kh k
      · simp [mapSet, mapGet, hb, ih]
      · simp [mapSet, mapGet, hb]

theorem mapGet_mapSet_ne (m : JsMap) (k k2 v : Json) (h : k2 ≠ k) :
    mapGet (mapSet m k v) k2 = mapGet m k2 := by
  induction m with
  | nil => simp [mapSet, mapGet, Json.beq_eq_false_of_ne (Ne.symm h)]
  | cons p tl ih =>
      obtain ⟨kh, vh⟩ := p
      cases hb : Json.beq kh k
      · simp [mapSet, mapGet, hb, ih]
      · have hk : kh = k := Json.eq_of_beq hb
        have hb2 : Json.beq kh k2 = false :=
          Json.beq_eq_false_of_ne (by rw [hk]; exact Ne.symm h)
        simp [mapSet, mapGet, hb, hb2]

theorem isSome_mapGet_mapSet (m : JsMap) (k k2 v : Json)
    (h : (mapGet m k2).isSome) : (mapGet (mapSet m k v) k2).isSome := by
  by_cases hk : k2 = k
  · subst hk
    rw [mapGet_mapSet_self]
    rfl
  · rw [mapGet_mapSet_ne m k k2 v hk]
    exact h

theorem mapGet_eq_none_of_not_mem (m : JsMap) (k : Json)
    (h : k ∉ mapKeys m) : mapGet m k = none := by
  induction m with
  | nil => rfl
  | cons p tl ih =>
      obtain ⟨kh, vh⟩ := p
      simp only [mapKeys, List.map_cons, List.mem_cons] at h
      push_neg at h
      have hb : Json.beq kh k = false :=
        Json.beq_eq_false_of_ne (fun he => h.1 he.symm)
      simp only [mapGet, hb]
      exact ih (by simpa [mapKeys] using h.2)

theorem mapKeys_mapSet_of_isSome (m : JsMap) (k v : Json)
    (h : (mapGet m k).isSome) : mapKeys (mapSet m k v) = mapKeys m := by
  induction m with
  | nil => simp [mapGet] at h
  | cons p tl ih =>
      obtain ⟨kh, vh⟩ := p
      cases hb : Json.beq kh k
      · simp only [mapGet, hb, Bool.false_eq_true, if_false] at h
        have htl := ih h
        simp only [mapKeys] at htl
        simp [mapSet, hb, mapKeys, htl]
      · simp [mapSet, hb, mapKeys]

theorem mem_mapKeys_mapSet (m : JsMap) (k k2 v : Json)
    (h : k2 ∈ mapKeys (mapSet m k v)) : k2 ∈ mapKeys m ∨ k2 = k := by
  induction m with
  | nil => simpa [mapSet, mapKeys] using h
  | cons p tl ih =>
      obtain ⟨kh, vh⟩ := p
      cases hb : Json.beq kh k
      · rw [show mapSet ((kh, vh) :: tl) k v = (kh, vh) :: mapSet tl k v by
            simp [mapSet, hb]] at h
        simp only [mapKeys, List.map_cons, List.mem_cons] at h
        rcases h with he | htl
        · exact Or.inl (by simp [mapKeys, he])
        · rcases ih htl with hm | hk
          · refine Or.inl ?_
            simp only [mapKeys, List.map_cons, List.mem_cons]
            simp only [mapKeys] at hm
            exact Or.inr hm
          · exact Or.inr hk
      · rw [show mapSet ((kh, vh) :: tl) k v = (kh, v) :: tl by simp [mapSet, hb]] at h
        exact Or.inl h

theorem nodup_mapKeys_mapSet (m : JsMap) (k v : Json)
    (h : (mapKeys m).Nodup) : (mapKeys (mapSet m k v)).Nodup := by
  induction m with
  | nil => simp [mapSet, mapKeys]
  | cons p tl ih =>
      obtain ⟨kh, vh⟩ := p
      simp only [mapKeys, List.map_cons, List.nodup_cons] at h
      cases hb : Json.beq kh k
      · rw [show mapSet ((kh, vh) :: tl) k v = (kh, vh) :: mapSet tl k v by
            simp [mapSet, hb]]
        simp only [mapKeys, List.map_cons, List.nodup_cons]
        refine ⟨fun hmem => ?_, ih h.2⟩
        rcases mem_mapKeys_mapSet tl k kh v (by simpa [mapKeys] using hmem) with hm | hk
        · exact h.1 (by simpa [mapKeys] using hm)
        · rw [hk] at hb
          rw [Json.beq_refl] at hb
          exact Bool.noConfusion hb
      · rw [show mapSet ((kh, vh) :: tl) k v = (kh, v) :: tl by simp [mapSet, hb]]
        simp only [mapKeys, List.map_cons, List.nodup_cons]
        exact ⟨h.1, h.2⟩

theorem mem_mapSet (m : JsMap) (k v : Json) (p : Json × Json)
    (h : p ∈ mapSet m k v) : p ∈ m ∨ p = (k, v) := by
  induction m with
  | nil => simpa [mapSet] using h
  | cons q tl ih =>
      obtain ⟨kh, vh⟩ := q
      cases hb : Json.beq kh k
      · rw [show mapSet ((kh, vh) :: tl) k v = (kh, vh) :: mapSet tl k v by
            simp [mapSet, hb]] at h
        rcases List.mem_cons.1 h with he | htl
        · exact Or.inl (List.mem_cons.2 (Or.inl he))
        · rcases ih htl with hm | he
          · exact Or.inl (List.mem_cons.2 (Or.inr hm))
          · exact Or.inr he
      · rw [show mapSet ((kh, vh) :: tl) k v = (kh, v) :: tl by simp [mapSet, hb]] at h
        rcases List.mem_cons.1 h with he | htl
        · have hk : kh = k := Json.eq_of_beq hb
          exact Or.inr (by rw [he, hk])
        · exact Or.inl (List.mem_cons.2 (Or.inr htl))

theorem map_ext_nodup (m1 : JsMap) : ∀ (m2 : JsMap), mapKeys m1 = mapKeys m2 →
    (mapKeys m1).Nodup → (∀ k, mapGet m1 k = mapGet m2 k) → m1 = m2 := by
  induction m1 with
  | nil =>
      intro m2 hk _ _
      cases m2 with
      | nil => rfl
      | cons q t2 => simp [mapKeys] at hk
  | cons p t1 ih =>
      intro m2 hk hnd hget
      obtain ⟨k, v⟩ := p
      cases m2 with
      | nil => simp [mapKeys] at hk
      | cons q t2 =>
          obtain ⟨k2, v2⟩ := q
          simp only [mapKeys, List.map_cons] at hk
          injection hk with hkk htlk
          subst hkk
          simp only [mapKeys, List.map_cons, List.nodup_cons] at hnd
          have hv : v = v2 := by
            have hg := hget k
            simp [mapGet, Json.beq_refl] at hg
            exact hg
          subst hv
          have htl : t1 = t2 := by
            refine ih t2 htlk hnd.2 (fun kq => ?_)
            have hg := hget kq
            cases hb : Json.beq k kq
            · simpa [mapGet, hb] using hg
            · have hke : k = kq := Json.eq_of_beq hb
              subst hke
              have h2m : k ∉ mapKeys t2 := by
                simp only [mapKeys]
                rw [← htlk]
                exact hnd.1
              rw [mapGet_eq_none_of_not_mem t1 k hnd.1,
                mapGet_eq_none_of_not_mem t2 k h2m]
          rw [htl]

/-! ## Per-key characterization of the overlay and idempotence of the merge -/

/-- The per-key trace of the second identity-map loop: how the entry stored
under key `k` evolves while `incoming` is folded in. -/
def ovChain (e : Option Json) (incoming : List Json) (k : Json) : Option Json :=
  incoming.foldl
    (fun a item =>
      if itemNameTruthy item && Json.beq (itemName item) k then
        some (.obj (.ofList (spreadFields (optFields a) (jsSpreadFields item))))
      else a) e

theorem mapGet_overlayMap (incoming : List Json) (m : JsMap) (k : Json) :
    mapGet (overlayMap m incoming) k = ovChain (mapGet m k) incoming k := by
  induction incoming generalizing m with
  | nil => rfl
  | cons item tl ih =>
      show mapGet (overlayMap (overlayStep m item) tl) k = _
      rw [ih]
      cases htr : itemNameTruthy item
      · rw [show overlayStep m item = m by simp [overlayStep, htr]]
        simp [ovChain, htr]
      · cases hbk : Json.beq (itemName item) k
        · have hne : itemName item ≠ k := fun he => by
            rw [he, Json.beq_refl] at hbk
            exact Bool.noConfusion hbk
          rw [show overlayStep m item
              = mapSet m (itemName item)
                  (.obj (.ofList (spreadFields (optFields (mapGet m (itemName item)))
                    (jsSpreadFields item)))) by simp [overlayStep, htr]]
          rw [mapGet_mapSet_ne _ _ _ _ (fun he => hne he.symm)]
          show ovChain (mapGet m k) tl k = ovChain (mapGet m k) (item :: tl) k
          simp [ovChain, htr, hbk]
        · have hke : itemName item = k := Json.eq_of_beq hbk
          rw [show overlayStep m item
              = mapSet m (itemName item)
                  (.obj (.ofList (spreadFields (optFields (mapGet m (itemName item)))
                    (jsSpreadFields item)))) by simp [overlayStep, htr]]
          rw [hke, mapGet_mapSet_self]
          show ovChain _ tl k = ovChain (mapGet m k) (item :: tl) k
          simp [ovChain, htr, hbk, hke, Json.beq_refl]

theorem ovChain_isSome_mono (incoming : List Json) (k : Json) (x : Json) :
    (ovChain (some x) incoming k).isSome := by
  induction incoming generalizing x with
  | nil => rfl
  | cons item tl ih =>
      show (ovChain _ tl k).isSome
      cases hc : (itemNameTruthy item && Json.beq (itemName item) k)
      · simpa [hc] using ih x
      · simpa [hc] using ih _

theorem ovChain_isSome_of_mem (incoming : List Json) (e : Option Json) (k : Json)
    (item : Json) (hmem : item ∈ incoming) (htr : itemNameTruthy item = true)
    (hk : itemName item = k) : (ovChain e incoming k).isSome := by
  induction incoming generalizing e with
  | nil => simp at hmem
  | cons hd tl ih =>
      have hstep : ∀ (e2 : Option Json), ovChain e2 (hd :: tl) k
          = ovChain (if itemNameTruthy hd && Json.beq (itemName hd) k then
                some (Json.obj (JsonFields.ofList (spreadFields (optFields e2) (jsSpreadFields hd))))
              else e2) tl k := fun e2 => rfl
      rw [hstep]
      rcases List.mem_cons.1 hmem with he | htl
      · subst he
        rw [if_pos (by simp [htr, hk, Json.beq_refl])]
        exact ovChain_isSome_mono tl k _
      · cases hc : (itemNameTruthy hd && Json.beq (itemName hd) k)
        · simp only [hc, Bool.false_eq_true, if_false]
          exact ih e htl
        · simp only [hc, if_true]
          exact ovChain_isSome_mono tl k _

theorem foldl_if_filter {α β : Type} (l : List α) (p : α → Bool) (g : β → α → β) (e : β) :
    l.foldl (fun a x => if p x then g a x else a) e = (l.filter p).foldl g e := by
  induction l generalizing e with
  | nil => rfl
  | cons x tl ih =>
      cases hp : p x
      · simp [hp, ih]
      · simp [hp, ih]

theorem chainStep_obj (L : List Json) (f : List (String × Json)) :
    L.foldl (fun a it =>
        some (Json.obj (.ofList (spreadFields (optFields a) (jsSpreadFields it)))))
        (some (.obj (.ofList f)))
      = some (.obj (.ofList ((L.map jsSpreadFields).foldl spreadFields f))) := by
  induction L generalizing f with
  | nil => rfl
  | cons g tl ih =>
      show tl.foldl
          (fun a it =>
            some (Json.obj (JsonFields.ofList (spreadFields (optFields a) (jsSpreadFields it)))))
          (some (Json.obj (JsonFields.ofList (spreadFields
            (optFields (some (Json.obj (JsonFields.ofList f)))) (jsSpreadFields g)))))
        = some (Json.obj (JsonFields.ofList (((g :: tl).map jsSpreadFields).foldl spreadFields f)))
      rw [show optFields (some (Json.obj (JsonFields.ofList f))) = f by
          simp [optFields, jsSpreadFields, JsonFields.toList_ofList_fields]]
      rw [ih (spreadFields f (jsSpreadFields g))]
      rfl

theorem ovChain_absorb (e : Option Json) (incoming : List Json) (k : Json)
    (h : ∀ it ∈ incoming, ((jsSpreadFields it).map Prod.fst).Nodup) :
    ovChain (ovChain e incoming k) incoming k = ovChain e incoming k := by
  have hfil : ∀ (e2 : Option Json), ovChain e2 incoming k
      = (incoming.filter (fun it => itemNameTruthy it && Json.beq (itemName it) k)).foldl
          (fun a it =>
            some (Json.obj (JsonFields.ofList (spreadFields (optFields a) (jsSpreadFields it)))))
          e2 :=
    fun e2 => foldl_if_filter incoming
      (fun it => itemNameTruthy it && Json.beq (itemName it) k)
      (fun a it =>
        some (Json.obj (JsonFields.ofList (spreadFields (optFields a) (jsSpreadFields it)))))
      e2
  rw [hfil, hfil]
  have hLnd : ∀ g ∈ (incoming.filter
        (fun it => itemNameTruthy it && Json.beq (itemName it) k)).map jsSpreadFields,
      (g.map Prod.fst).Nodup := by
    intro g hg
    obtain ⟨it, hit, rfl⟩ := List.mem_map.1 hg
    exact h it (List.mem_of_mem_filter hit)
  generalize hLdef : incoming.filter (fun it => itemNameTruthy it && Json.beq (itemName it) k) = L
  rw [hLdef] at hLnd
  cases L with
  | nil => rfl
  | cons g tl =>
      have h1 := chainStep_obj tl (spreadFields (optFields e) (jsSpreadFields g))
      have habs := foldl_spread_absorb ((g :: tl).map jsSpreadFields) (optFields e) hLnd
      calc (g :: tl).foldl
            (fun a it =>
              some (Json.obj (JsonFields.ofList (spreadFields (optFields a) (jsSpreadFields it)))))
            ((g :: tl).foldl
              (fun a it =>
                some (Json.obj (JsonFields.ofList (spreadFields (optFields a) (jsSpreadFields it)))))
              e)
          = (g :: tl).foldl
              (fun a it =>
                some (Json.obj (JsonFields.ofList (spreadFields (optFields a) (jsSpreadFields it)))))
              (some (Json.obj (JsonFields.ofList ((tl.map jsSpreadFields).foldl spreadFields
                (spreadFields (optFields e) (jsSpreadFields g)))))) := by
            exact congrArg (fun s => (g :: tl).foldl
              (fun a it =>
                some (Json.obj (JsonFields.ofList (spreadFields (optFields a) (jsSpreadFields it)))))
              s) h1
        _ = some (Json.obj (JsonFields.ofList (((g :: tl).map jsSpreadFields).foldl spreadFields
              ((tl.map jsSpreadFields).foldl spreadFields
                (spreadFields (optFields e) (jsSpreadFields g)))))) :=
            chainStep_obj (g :: tl) _
        _ = some (Json.obj (JsonFields.ofList ((tl.map jsSpreadFields).foldl spreadFields
              (spreadFields (optFields e) (jsSpreadFields g))))) := by
            exact congrArg (fun l => some (Json.obj (JsonFields.ofList l))) habs
        _ = (g :: tl).foldl
              (fun a it =>
                some (Json.obj (JsonFields.ofList (spreadFields (optFields a) (jsSpreadFields it)))))
              e := h1.symm

/-! ## Invariants of the identity map and idempotence of the merge -/

/-- Every entry of the identity map is stored under its own truthy `name`. -/
def mapEntryOk (p : Json × Json) : Prop :=
  itemNameTruthy p.2 = true ∧ itemName p.2 = p.1

theorem name_lookup_of_truthy (item : Json) (h : itemNameTruthy item = true) :
    lookupField (jsSpreadFields item) "name" = some (itemName item) := by
  cases item with
  | obj fs =>
      cases hlk : lookupField fs.toList "name" with
      | none => simp [itemNameTruthy, itemName, getField, hlk, truthy] at h
      | some v => simp [jsSpreadFields, itemName, getField, hlk]
  | null => simp [itemNameTruthy, itemName, getField, truthy] at h
  | bool b => simp [itemNameTruthy, itemName, getField, truthy] at h
  | num n => simp [itemNameTruthy, itemName, getField, truthy] at h
  | str s => simp [itemNameTruthy, itemName, getField, truthy] at h
  | arr xs => simp [itemNameTruthy, itemName, getField, truthy] at h

theorem itemName_spread_obj (a : List (String × Json)) (item : Json)
    (h : itemNameTruthy item = true) :
    itemName (Json.obj (JsonFields.ofList (spreadFields a (jsSpreadFields item))))
      = itemName item := by
  have hlk : lookupField (spreadFields a (jsSpreadFields item)) "name"
      = some (itemName item) := by
    rw [lookupField_spreadFields, name_lookup_of_truthy item h]
  simp [itemName, getField, JsonFields.toList_ofList_fields, hlk]

theorem foldl_baseMapStep_inv (items : List Json) (m : JsMap)
    (hm : ∀ p ∈ m, mapEntryOk p) :
    ∀ p ∈ items.foldl baseMapStep m, mapEntryOk p := by
  induction items generalizing m with
  | nil => exact hm
  | cons item tl ih =>
      show ∀ p ∈ tl.foldl baseMapStep (baseMapStep m item), mapEntryOk p
      refine ih (baseMapStep m item) ?_
      intro p hp
      cases htr : itemNameTruthy item
      · rw [show baseMapStep m item = m by simp [baseMapStep, htr]] at hp
        exact hm p hp
      · rw [show baseMapStep m item = mapSet m (itemName item) item by
            simp [baseMapStep, htr]] at hp
        rcases mem_mapSet m (itemName item) item p hp with hmem | he
        · exact hm p hmem
        · rw [he]
          exact ⟨htr, rfl⟩

theorem foldl_overlayStep_inv (incoming : List Json) (m : JsMap)
    (hm : ∀ p ∈ m, mapEntryOk p) :
    ∀ p ∈ overlayMap m incoming, mapEntryOk p := by
  induction incoming generalizing m with
  | nil => exact hm
  | cons item tl ih =>
      show ∀ p ∈ overlayMap (overlayStep m item) tl, mapEntryOk p
      refine ih (overlayStep m item) ?_
      intro p hp
      cases htr : itemNameTruthy item
      · rw [show overlayStep m item = m by simp [overlayStep, htr]] at hp
        exact hm p hp
      · rw [show overlayStep m item
            = mapSet m (itemName item)
                (.obj (.ofList (spreadFields (optFields (mapGet m (itemName item)))
                  (jsSpreadFields item)))) by simp [overlayStep, htr]] at hp
        rcases mem_mapSet m (itemName item) _ p hp with hmem | he
        · exact hm p hmem
        · rw [he]
          refine ⟨?_, itemName_spread_obj _ item htr⟩
          show itemNameTruthy _ = true
          rw [itemNameTruthy, itemName_spread_obj _ item htr]
          exact htr

theorem nodup_keys_foldl_baseMapStep (items : List Json) (m : JsMap)
    (h : (mapKeys m).Nodup) : (mapKeys (items.foldl baseMapStep m)).Nodup := by
  induction items generalizing m with
  | nil => exact h
  | cons item tl ih =>
      show (mapKeys (tl.foldl baseMapStep (baseMapStep m item))).Nodup
      refine ih _ ?_
      cases htr : itemNameTruthy item
      · rw [show baseMapStep m item = m by simp [baseMapStep, htr]]
        exact h
      · rw [show baseMapStep m item = mapSet m (itemName item) item by
            simp [baseMapStep, htr]]
        exact nodup_mapKeys_mapSet m _ _ h

theorem nodup_keys_overlayMap (incoming : List Json) (m : JsMap)
    (h : (mapKeys m).Nodup) : (mapKeys (overlayMap m incoming)).Nodup := by
  induction incoming generalizing m with
  | nil => exact h
  | cons item tl ih =>
      show (mapKeys (overlayMap (overlayStep m item) tl)).Nodup
      refine ih _ ?_
      cases htr : itemNameTruthy item
      · rw [show overlayStep m item = m by simp [overlayStep, htr]]
        exact h
      · rw [show overlayStep m item
            = mapSet m (itemName item)
                (.obj (.ofList (spreadFields (optFields (mapGet m (itemName item)))
                  (jsSpreadFields item)))) by simp [overlayStep, htr]]
        exact nodup_mapKeys_mapSet m _ _ h

theorem mapSet_append_new (m : JsMap) (k v : Json) (h : mapGet m k = none) :
    mapSet m k v = m ++ [(k, v)] := by
  induction m with
  | nil => rfl
  | cons p tl ih =>
      obtain ⟨kh, vh⟩ := p
      cases hb : Json.beq kh k
      · simp only [mapGet, hb, Bool.false_eq_true, if_false] at h
        simp [mapSet, hb, ih h]
      · simp [mapGet, hb] at h

theorem foldl_baseMapStep_values (m acc : JsMap)
    (hm : ∀ p ∈ m, mapEntryOk p) (hnd : (mapKeys (acc ++ m)).Nodup) :
    (mapValues m).foldl baseMapStep acc = acc ++ m := by
  induction m generalizing acc with
  | nil => simp [mapValues]
  | cons p t ihm =>
      obtain ⟨k, v⟩ := p
      have hhd : mapEntryOk (k, v) := hm (k, v) (List.mem_cons_self _ _)
      show ((t.map Prod.snd).foldl baseMapStep (baseMapStep acc v)) = acc ++ (k, v) :: t
      rw [show baseMapStep acc v = mapSet acc (itemName v) v by
          simp [baseMapStep, hhd.1]]
      rw [hhd.2]
      have hknotin : k ∉ mapKeys acc := by
        simp only [mapKeys, List.map_append, List.map_cons] at hnd
        have := (List.nodup_append.1 hnd).2.2
        intro hmem
        exact this hmem (List.mem_cons_self _ _)
      rw [mapSet_append_new acc k v (mapGet_eq_none_of_not_mem acc k hknotin)]
      have hres := ihm (acc ++ [(k, v)])
        (fun p hp => hm p (List.mem_cons_of_mem _ hp))
        (by rw [List.append_assoc]; exact hnd)
      rw [show (List.map Prod.snd t) = mapValues t from rfl, hres, List.append_assoc]
      rfl

theorem itemsByNameOf_mapValues (m : JsMap)
    (hm : ∀ p ∈ m, mapEntryOk p) (hnd : (mapKeys m).Nodup) :
    itemsByNameOf (mapValues m) = m := by
  have := foldl_baseMapStep_values m [] hm (by simpa using hnd)
  simpa [itemsByNameOf] using this

theorem mapKeys_overlayMap_covered (incoming : List Json) (m : JsMap)
    (hcov : ∀ it ∈ incoming, itemNameTruthy it = true → (mapGet m (itemName it)).isSome) :
    mapKeys (overlayMap m incoming) = mapKeys m := by
  induction incoming generalizing m with
  | nil => rfl
  | cons item tl ih =>
      show mapKeys (overlayMap (overlayStep m item) tl) = mapKeys m
      cases htr : itemNameTruthy item
      · rw [show overlayStep m item = m by simp [overlayStep, htr]]
        exact ih m (fun it hit h2 => hcov it (List.mem_cons_of_mem _ hit) h2)
      · rw [show overlayStep m item
            = mapSet m (itemName item)
                (.obj (.ofList (spreadFields (optFields (mapGet m (itemName item)))
                  (jsSpreadFields item)))) by simp [overlayStep, htr]]
        have hS := hcov item (List.mem_cons_self _ _) htr
        rw [ih _ (fun it hit h2 =>
          isSome_mapGet_mapSet m _ _ _ (hcov it (List.mem_cons_of_mem _ hit) h2))]
        exact mapKeys_mapSet_of_isSome m _ _ hS

theorem overlayMap_overlayMap (baseItems incoming : List Json)
    (h : ∀ it ∈ incoming, ((jsSpreadFields it).map Prod.fst).Nodup) :
    overlayMap (overlayMap (itemsByNameOf baseItems) incoming) incoming
      = overlayMap (itemsByNameOf baseItems) incoming := by
  have hnd0 : (mapKeys (itemsByNameOf baseItems)).Nodup :=
    nodup_keys_foldl_baseMapStep baseItems [] (by simp [mapKeys])
  have hnd1 : (mapKeys (overlayMap (itemsByNameOf baseItems) incoming)).Nodup :=
    nodup_keys_overlayMap incoming _ hnd0
  have hcov : ∀ it ∈ incoming, itemNameTruthy it = true →
      (mapGet (overlayMap (itemsByNameOf baseItems) incoming) (itemName it)).isSome := by
    intro it hit htr
    rw [mapGet_overlayMap]
    exact ovChain_isSome_of_mem incoming _ (itemName it) it hit htr rfl
  have hkeys : mapKeys (overlayMap (overlayMap (itemsByNameOf baseItems) incoming) incoming)
      = mapKeys (overlayMap (itemsByNameOf baseItems) incoming) :=
    mapKeys_overlayMap_covered incoming _ hcov
  refine map_ext_nodup _ _ hkeys (by rw [hkeys]; exact hnd1) (fun k => ?_)
  rw [mapGet_overlayMap, mapGet_overlayMap]
  exact ovChain_absorb (mapGet (itemsByNameOf baseItems) k) incoming k h

theorem stateItems_mergeNextState (b : Json) (incoming : List Json) :
    stateItems (mergeNextState b incoming)
      = mapValues (overlayMap (itemsByNameOf (stateItems b)) incoming) := by
  show (match getField (mergeNextState b incoming) "items" with
    | some (.arr l) => l.toList
    | _ => []) = _
  rw [show getField (mergeNextState b incoming) "items"
      = lookupField (setKey (jsSpreadFields b) "items"
          (.arr (.ofList (mapValues (overlayMap (itemsByNameOf (stateItems b)) incoming)))))
          "items" by
    simp [mergeNextState, getField, JsonFields.toList_ofList_fields]]
  rw [lookupField_setKey_self]
  simp [JsonList.toList_ofList_list]

theorem jsSpreadFields_mergeNextState (b : Json) (incoming : List Json) :
    jsSpreadFields (mergeNextState b incoming)
      = setKey (jsSpreadFields b) "items"
          (.arr (.ofList (mapValues (overlayMap (itemsByNameOf (stateItems b)) incoming)))) := by
  simp [mergeNextState, jsSpreadFields, JsonFields.toList_ofList_fields]

theorem mergeNextState_idem (b : Json) (incoming : List Json)
    (h : ∀ it ∈ incoming, ((jsSpreadFields it).map Prod.fst).Nodup) :
    mergeNextState (mergeNextState b incoming) incoming = mergeNextState b incoming := by
  have hnd0 : (mapKeys (itemsByNameOf (stateItems b))).Nodup :=
    nodup_keys_foldl_baseMapStep (stateItems b) [] (by simp [mapKeys])
  have hinv : ∀ p ∈ overlayMap (itemsByNameOf (stateItems b)) incoming, mapEntryOk p :=
    foldl_overlayStep_inv incoming _
      (foldl_baseMapStep_inv (stateItems b) [] (by simp))
  have hnd1 : (mapKeys (overlayMap (itemsByNameOf (stateItems b)) incoming)).Nodup :=
    nodup_keys_overlayMap incoming _ hnd0
  show Json.obj (.ofList (setKey (jsSpreadFields (mergeNextState b incoming)) "items"
      (.arr (.ofList (mapValues (overlayMap
        (itemsByNameOf (stateItems (mergeNextState b incoming))) incoming)))))) = _
  rw [stateItems_mergeNextState, jsSpreadFields_mergeNextState]
  rw [itemsByNameOf_mapValues _ hinv hnd1]
  rw [overlayMap_overlayMap (stateItems b) incoming h]
  rw [setKey_setKey]
  rfl

/-! ## Support lemmas for the claim theorems -/

theorem isNullJ_eq_true_iff (j : Json) : isNullJ j = true ↔ j = .null := by
  cases j <;> simp [isNullJ]

theorem JsonFields.ofList_toList_fields : ∀ (fs : JsonFields), JsonFields.ofList fs.toList = fs
  | .nil => rfl
  | .cons k v tl => by
      simp [JsonFields.toList, JsonFields.ofList, JsonFields.ofList_toList_fields tl]

theorem JsonList.ofList_toList_list : ∀ (l : JsonList), JsonList.ofList l.toList = l
  | .nil => rfl
  | .cons x tl => by
      simp [JsonList.toList, JsonList.ofList, JsonList.ofList_toList_list tl]

theorem copyItem_obj (it : Json) (h : isObjJ it = true) : copyItem it = it := by
  cases it with
  | obj fs => simp [copyItem, jsSpreadFields, JsonFields.ofList_toList_fields]
  | null => simp [isObjJ] at h
  | bool b => simp [isObjJ] at h
  | num n => simp [isObjJ] at h
  | str s => simp [isObjJ] at h
  | arr xs => simp [isObjJ] at h

theorem map_copyItem_of_objs (l : List Json) (h : ∀ it ∈ l, isObjJ it = true) :
    l.map copyItem = l := by
  rw [map_congr_mem l copyItem id (fun it hit => by rw [copyItem_obj it (h it hit)]; rfl)]
  exact List.map_id l

theorem mapGet_mem_mapValues (m : JsMap) (k v : Json) (h : mapGet m k = some v) :
    v ∈ mapValues m := by
  induction m with
  | nil => simp [mapGet] at h
  | cons p tl ih =>
      obtain ⟨kh, vh⟩ := p
      cases hb : Json.beq kh k
      · simp only [mapGet, hb, Bool.false_eq_true, if_false] at h
        exact List.mem_cons_of_mem _ (ih h)
      · simp only [mapGet, hb, if_true] at h
        rw [← Option.some.inj h]
        exact List.mem_cons_self _ _

theorem mem_mapValues_mapSet (m : JsMap) (k v v2 : Json)
    (h : v2 ∈ mapValues (mapSet m k v)) : v2 ∈ mapValues m ∨ v2 = v := by
  induction m with
  | nil => simpa [mapSet, mapValues] using h
  | cons p tl ih =>
      obtain ⟨kh, vh⟩ := p
      cases hb : Json.beq kh k
      · rw [show mapSet ((kh, vh) :: tl) k v = (kh, vh) :: mapSet tl k v by
            simp [mapSet, hb]] at h
        rcases List.mem_cons.1 h with he | htl
        · exact Or.inl (List.mem_cons.2 (Or.inl he))
        · rcases ih htl with hm | he
          · exact Or.inl (List.mem_cons.2 (Or.inr hm))
          · exact Or.inr he
      · rw [show mapSet ((kh, vh) :: tl) k v = (kh, v) :: tl by simp [mapSet, hb]] at h
        rcases List.mem_cons.1 h with he | htl
        · exact Or.inr he
        · exact Or.inl (List.mem_cons.2 (Or.inr htl))

theorem stateItems_setKey_obj (fs : List (String × Json)) (l : List Json) :
    stateItems (Json.obj (.ofList (setKey fs "items" (.arr (.ofList l))))) = l := by
  show (match getField (Json.obj (.ofList (setKey fs "items" (.arr (.ofList l))))) "items" with
    | some (.arr xs) => xs.toList
    | _ => []) = l
  rw [show getField (Json.obj (.ofList (setKey fs "items" (.arr (.ofList l))))) "items"
      = lookupField (setKey fs "items" (.arr (.ofList l))) "items" by
    simp [getField, JsonFields.toList_ofList_fields]]
  rw [lookupField_setKey_self]
  simp [JsonList.toList_ofList_list]

theorem jsQuantity_mkObj (l : List (String × Json)) :
    jsQuantity (Json.obj (.ofList l))
      = (match lookupField l "quantity" with
          | some (.num n) => n
          | _ => 0) := by
  simp [jsQuantity, getField, JsonFields.toList_ofList_fields]

theorem obj_of_itemNameTruthy (item : Json) (h : itemNameTruthy item = true) :
    isObjJ item = true := by
  cases item with
  | obj fs => rfl
  | null => simp [itemNameTruthy, itemName, getField, truthy] at h
  | bool b => simp [itemNameTruthy, itemName, getField, truthy] at h
  | num n => simp [itemNameTruthy, itemName, getField, truthy] at h
  | str s => simp [itemNameTruthy, itemName, getField, truthy] at h
  | arr xs => simp [itemNameTruthy, itemName, getField, truthy] at h

theorem getField_obj_eq_lookup_spread (item : Json) (h : isObjJ item = true) (k : String) :
    getField item k = lookupField (jsSpreadFields item) k := by
  cases item with
  | obj fs => rfl
  | null => simp [isObjJ] at h
  | bool b => simp [isObjJ] at h
  | num n => simp [isObjJ] at h
  | str s => simp [isObjJ] at h
  | arr xs => simp [isObjJ] at h

theorem isNullJ_eq_false_of_ne (j : Json) (h : j ≠ .null) : isNullJ j = false := by
  cases j with
  | null => exact absurd rfl h
  | bool b => rfl
  | num n => rfl
  | str s => rfl
  | arr l => rfl
  | obj fs => rfl

/-! ## Claim theorems -/

/-- Sample wire-contract values used by concrete witnesses. -/
def sampleItemA : Json := mkObj [("name", .str "A"), ("quantity", .num 1)]

def sampleHostState : Json := mkObj [("items", mkArr [sampleItemA])]

def sampleToolOutput : Json :=
  mkObj [("items", mkArr [mkObj [("name", .str "Y"), ("quantity", .num 2)]])]

def sampleToolInput : Json := mkObj [("items", mkArr [sampleItemA])]

def margheritaBase : Json :=
  mkObj [("name", .str "Margherita"), ("quantity", .num 2), ("price", .num 10)]

def margheritaIncoming : Json := mkObj [("name", .str "Margherita"), ("quantity", .num 5)]

/-- C10: when all three feeds — `toolInput`, `toolOutput` and `widgetState` —
are null, the merge effect returns before computing anything: no state is
published and the committed marker is left unchanged, for every engine state,
including ones whose local cart is non-empty. -/
theorem c10_all_feeds_null_early_return (s : EngineState) :
    mergeEffect ⟨.null, .null, .null⟩ s = (s, false) := rfl

/-- C9: the Source Multiplexer yields the `items` field of `toolInput`
exactly when that field is an array, and the empty sequence for every other
shape (null input, primitive input, missing or non-array `items`); it is a
total function, so no input makes it fail. -/
theorem c9_partial_items_iff_array (toolInput : Json) :
    (∀ l : JsonList, getField toolInput "items" = some (.arr l) →
        incomingItems toolInput = l.toList)
    ∧ ((∀ l : JsonList, getField toolInput "items" ≠ some (.arr l)) →
        incomingItems toolInput = []) := by
  constructor
  · intro l h
    simp [incomingItems, h]
  · intro h
    show (match getField toolInput "items" with
      | some (.arr l) => l.toList
      | _ => []) = []
    cases hg : getField toolInput "items" with
    | none => rfl
    | some v =>
        cases v with
        | arr l => exact absurd hg (h l)
        | null => rfl
        | bool b => rfl
        | num n => rfl
        | str s => rfl
        | obj fs => rfl

theorem c9_partial_items_witness :
    incomingItems (mkObj [("items", mkArr [Json.num 1])]) = [Json.num 1]
    ∧ incomingItems (Json.str "malformed") = [] :=
  ⟨(c9_partial_items_iff_array _).1 (JsonList.ofList [Json.num 1]) rfl,
   (c9_partial_items_iff_array _).2 (fun _l h => Option.noConfusion h)⟩

/-- C2: the forced-resync flag is true exactly when `widgetState` is null and
`toolOutput` is non-null, and whenever it is true the merge effect publishes
the computed merge result unconditionally — for every engine state, hence
regardless of the marker comparison and of `widgetStateEqual` against the
local cart — and commits its serialization as the new marker. -/
theorem c2_forced_resync_always_publishes (f : Feeds) (s : EngineState) :
    (shouldForceSyncFromResponse f = true ↔ (f.widgetState = .null ∧ f.toolOutput ≠ .null))
    ∧ (shouldForceSyncFromResponse f = true →
        mergeEffect f s
          = ({ marker := Json.stringify (computedNextState f s),
               cart := computedNextState f s }, true)) := by
  have hiff : shouldForceSyncFromResponse f = true
      ↔ (f.widgetState = .null ∧ f.toolOutput ≠ .null) := by
    rw [shouldForceSyncFromResponse, Bool.and_eq_true, Bool.not_eq_true', isNullJ_eq_true_iff]
    constructor
    · rintro ⟨h1, h2⟩
      refine ⟨h1, fun he => ?_⟩
      rw [he] at h2
      simp [isNullJ] at h2
    · rintro ⟨h1, h2⟩
      exact ⟨h1, isNullJ_eq_false_of_ne f.toolOutput h2⟩
  refine ⟨hiff, fun hforce => ?_⟩
  have hout : isNullJ f.toolOutput = false := isNullJ_eq_false_of_ne _ (hiff.1 hforce).2
  have hall : allFeedsNull f = false := by
    rw [allFeedsNull, hout]
    simp
  simp [mergeEffect, hall, hforce]

theorem c2_forced_resync_witness :
    mergeEffect ⟨.null, sampleToolOutput, .null⟩ (initState .null)
      = ({ marker := Json.stringify
             (computedNextState ⟨.null, sampleToolOutput, .null⟩ (initState .null)),
           cart := computedNextState ⟨.null, sampleToolOutput, .null⟩ (initState .null) },
         true) :=
  (c2_forced_resync_always_publishes _ _).2 rfl

/-- C3: the merge overlays each incoming item with a non-empty `name` onto
the identity map by shallow-merging its fields onto the existing entry of the
same name — incoming fields win on conflict, fields absent in the incoming
item are preserved (the per-key lookup of the merged entry is the incoming
field when present, the existing field otherwise) — items with no existing
entry are inserted as they are, a later duplicate name overlays the entry
left by the earlier occurrence (map overwrite), and on the spec's concrete
examples: duplicate incoming `X`(1), `X`(3) ends with quantity 3, and base
Margherita(quantity 2, price 10) overlaid with Margherita(quantity 5) gives
quantity 5 with price 10 preserved. -/
theorem c3_merge_overlay (m : JsMap) (inc : List Json) (item : Json) (name : String) :
    (∀ efs : JsonFields,
        itemName item = .str name → name ≠ "" →
        mapGet (overlayMap m inc) (.str name) = some (.obj efs) →
        mapGet (overlayMap m (inc ++ [item])) (.str name)
            = some (.obj (.ofList (spreadFields efs.toList (jsSpreadFields item))))
          ∧ ∀ k : String, lookupField (spreadFields efs.toList (jsSpreadFields item)) k
              = (match lookupField (jsSpreadFields item) k with
                 | some v => some v
                 | none => lookupField efs.toList k))
    ∧ (itemName item = .str name → name ≠ "" →
        mapGet (overlayMap m inc) (.str name) = none →
        mapGet (overlayMap m (inc ++ [item])) (.str name)
          = some (.obj (.ofList (jsSpreadFields item))))
    ∧ mergeNextState (mkObj [("items", mkArr [])])
        [mkObj [("name", .str "X"), ("quantity", .num 1)],
         mkObj [("name", .str "X"), ("quantity", .num 3)]]
        = mkObj [("items", mkArr [mkObj [("name", .str "X"), ("quantity", .num 3)]])]
    ∧ mergeNextState (mkObj [("items", mkArr [margheritaBase])]) [margheritaIncoming]
        = mkObj [("items", mkArr
            [mkObj [("name", .str "Margherita"), ("quantity", .num 5), ("price", .num 10)]])] := by
  have happ : overlayMap m (inc ++ [item]) = overlayStep (overlayMap m inc) item := by
    rw [overlayMap, List.foldl_append]
    rfl
  refine ⟨?_, ?_, by decide, by decide⟩
  · intro efs hname hne hget
    have htr : itemNameTruthy item = true := by
      rw [itemNameTruthy, hname]
      simp [truthy, hne]
    constructor
    · rw [happ]
      rw [show overlayStep (overlayMap m inc) item
          = mapSet (overlayMap m inc) (itemName item)
              (.obj (.ofList (spreadFields
                (optFields (mapGet (overlayMap m inc) (itemName item)))
                (jsSpreadFields item)))) by simp [overlayStep, htr]]
      rw [hname, hget, mapGet_mapSet_self]
      rw [show optFields (some (.obj efs)) = efs.toList by simp [optFields, jsSpreadFields]]
    · intro k
      rw [lookupField_spreadFields]
  · intro hname hne hget
    have htr : itemNameTruthy item = true := by
      rw [itemNameTruthy, hname]
      simp [truthy, hne]
    rw [happ]
    rw [show overlayStep (overlayMap m inc) item
        = mapSet (overlayMap m inc) (itemName item)
            (.obj (.ofList (spreadFields
              (optFields (mapGet (overlayMap m inc) (itemName item)))
              (jsSpreadFields item)))) by simp [overlayStep, htr]]
    rw [hname, hget, mapGet_mapSet_self]
    rw [show optFields (none : Option Json) = [] from rfl, spreadFields_nil_left]

theorem c3_merge_overlay_witness :
    mapGet (overlayMap [(Json.str "Margherita", margheritaBase)] ([] ++ [margheritaIncoming]))
        (.str "Margherita")
      = some (mkObj [("name", .str "Margherita"), ("quantity", .num 5), ("price", .num 10)]) :=
  ((c3_merge_overlay [(Json.str "Margherita", margheritaBase)] [] margheritaIncoming
      "Margherita").1
    (.ofList [("name", .str "Margherita"), ("quantity", .num 2), ("price", .num 10)])
    rfl (by decide) rfl).1

/-- C5: when an edit with a non-empty name and non-zero delta targets a state
whose item collection contains an entry of that name (found at `idx` with
existing quantity `q`), the next quantity is `max 0 (q + delta)`; at zero the
entry is removed from the collection, otherwise it is replaced by a copy with
the updated quantity and every other field preserved, the rest of the state's
fields being carried over; and on the spec's concrete example, removing the
last unit of `A` leaves the empty collection. -/
theorem c5_local_edit_found (prevState : Json) (name : String) (delta : Int)
    (items : List Json) (idx : Nat) (q : Int) :
    (name ≠ "" → delta ≠ 0 →
      (∀ it ∈ stateItems prevState, isObjJ it = true) →
      isNullJ prevState = false →
      stateItems prevState = items →
      items.findIdx? (fun item => Json.beq (itemName item) (.str name)) = some idx →
      getField (items.getD idx .null) "quantity" = some (.num q) →
      ((max 0 (q + delta) = 0 →
          adjustQuantity prevState name delta
            = Json.obj (.ofList (setKey (jsSpreadFields prevState) "items"
                (.arr (.ofList (items.eraseIdx idx))))))
        ∧ (max 0 (q + delta) ≠ 0 →
          adjustQuantity prevState name delta
            = Json.obj (.ofList (setKey (jsSpreadFields prevState) "items"
                (.arr (.ofList (items.set idx
                  (Json.obj (.ofList (setKey (jsSpreadFields (items.getD idx .null))
                    "quantity" (.num (max 0 (q + delta))))))))))))))
    ∧ adjustQuantity (mkObj [("items", mkArr [sampleItemA])]) "A" (-1)
        = mkObj [("items", mkArr [])] := by
  refine ⟨?_, by decide⟩
  intro hname hdelta hobjs hnn hitems hfind hq
  have hguard : (name == "" || delta == 0) = false := by
    simp [hname, hdelta]
  have hbase : editBaseState prevState = prevState := by
    simp [editBaseState, hnn]
  have heitems : editItems prevState = items := by
    rw [editItems, hbase, hitems]
    exact map_copyItem_of_objs items (hitems ▸ hobjs)
  have hAq : adjustQuantity prevState name delta = adjustQuantityUpdate prevState name delta := by
    simp [adjustQuantity, hguard]
  have hjq : jsQuantity (items.getD idx .null) = q := by
    simp only [jsQuantity, hq]
  have hnq : nextQuantityOf (items.getD idx .null) delta = max 0 (q + delta) := by
    simp only [nextQuantityOf, hjq]
  constructor
  · intro h0
    rw [hAq]
    simp only [adjustQuantityUpdate, heitems, hfind, hnq, h0, hbase]
    simp
  · intro h0
    rw [hAq]
    have hne0 : ((max 0 (q + delta) == 0) : Bool) = false := by
      simpa using h0
    simp only [adjustQuantityUpdate, heitems, hfind, hnq, h0, hbase, hne0]
    simp

theorem c5_local_edit_found_witness :
    adjustQuantity sampleHostState "A" 3
      = Json.obj (.ofList (setKey (jsSpreadFields sampleHostState) "items"
          (.arr (.ofList ((stateItems sampleHostState).set 0
            (Json.obj (.ofList (setKey
              (jsSpreadFields ((stateItems sampleHostState).getD 0 .null))
              "quantity" (.num (max 0 (1 + 3))))))))))) :=
  ((c5_local_edit_found sampleHostState "A" 3 (stateItems sampleHostState) 0 1).1
    (by decide) (by decide) (by decide) (by decide) rfl (by decide) (by decide)).2 (by decide)

/-- C6 (amended): `adjustQuantity` leaves the state unchanged when the name
is empty or the delta is zero (the guard returns before `setCartState`, even
on a null state), and when the named item does not exist in a non-null
state's collection (silent no-op, not an error).  However, when the state is
null and the guard passes, the updater commits the empty object — not
`(items: [])` as the claim states, and not the unchanged null state. -/
theorem c6_local_edit_noop (S : Json) (name : String) (delta : Int) :
    ((name = "" ∨ delta = 0) → adjustQuantity S name delta = S)
    ∧ (name ≠ "" → delta ≠ 0 → isNullJ S = false →
        (∀ it ∈ stateItems S, isObjJ it = true) →
        (∀ it ∈ stateItems S, Json.beq (itemName it) (.str name) = false) →
        adjustQuantity S name delta = S)
    ∧ (name ≠ "" → delta ≠ 0 →
        adjustQuantity Json.null name delta = Json.obj .nil) := by
  refine ⟨?_, ?_, ?_⟩
  · intro h
    rcases h with h | h
    · simp [adjustQuantity, h]
    · simp [adjustQuantity, h]
  · intro hname hdelta hnn hobjs hnomatch
    have hguard : (name == "" || delta == 0) = false := by
      simp [hname, hdelta]
    have hbase : editBaseState S = S := by
      simp [editBaseState, hnn]
    have heitems : editItems S = stateItems S := by
      rw [editItems, hbase]
      exact map_copyItem_of_objs _ hobjs
    have hfind : (stateItems S).findIdx?
        (fun item => Json.beq (itemName item) (.str name)) = none :=
      List.findIdx?_eq_none_iff.2 (fun it hit => hnomatch it hit)
    simp [adjustQuantity, hguard, adjustQuantityUpdate, heitems, hfind, hbase]
  · intro hname hdelta
    have hguard : (name == "" || delta == 0) = false := by
      simp [hname, hdelta]
    have hAq : adjustQuantity Json.null name delta
        = adjustQuantityUpdate Json.null name delta := by
      simp [adjustQuantity, hguard]
    rw [hAq]
    rfl

theorem c6_local_edit_noop_witness :
    adjustQuantity sampleHostState "Z" 1 = sampleHostState :=
  (c6_local_edit_noop sampleHostState "Z" 1).2.1 (by decide) (by decide) (by decide)
    (by decide) (by decide)

theorem c6_counterexample :
    adjustQuantity Json.null "Z" 1 = Json.obj .nil
    ∧ Json.obj .nil ≠ Json.null
    ∧ Json.obj .nil ≠ mkObj [("items", mkArr [])] := by decide

/-- C1 (amended): with forced resync off, the change detector skips — no
publish, marker untouched — exactly when the canonical serialization equals
the previous marker; when it differs the marker is always updated to the new
serialization, but the state is published only if it is additionally not
`widgetStateEqual` to the current local cart: a merge whose serialization
differs from the marker while stringify-equal to the cart updates the marker
without publishing, so neither "publish iff the serialization differs" nor
"marker updated exactly when a publish occurs" holds of the code. -/
theorem c1_change_detector (f : Feeds) (s : EngineState)
    (h1 : allFeedsNull f = false)
    (hforce : shouldForceSyncFromResponse f = false) :
    ((mergeEffect f s).2
        = (!(Json.stringify (computedNextState f s) == s.marker)
          && !widgetStateEqual (computedNextState f s) s.cart))
    ∧ ((mergeEffect f s).1.marker
        = if Json.stringify (computedNextState f s) == s.marker then s.marker
          else Json.stringify (computedNextState f s))
    ∧ ((mergeEffect f s).2 = true → (mergeEffect f s).1.cart = computedNextState f s)
    ∧ ((mergeEffect f s).2 = false → (mergeEffect f s).1.cart = s.cart) := by
  cases hser : (Json.stringify (computedNextState f s) == s.marker) <;>
    cases heq : widgetStateEqual (computedNextState f s) s.cart <;>
      simp [mergeEffect, h1, hforce, hser, heq]

theorem c1_change_detector_witness :
    (mergeEffect ⟨sampleToolInput, .null, .null⟩ (initState .null)).2
      = (!(Json.stringify (computedNextState ⟨sampleToolInput, .null, .null⟩ (initState .null))
            == (initState .null).marker)
        && !widgetStateEqual (computedNextState ⟨sampleToolInput, .null, .null⟩ (initState .null))
            (initState .null).cart) :=
  (c1_change_detector ⟨sampleToolInput, .null, .null⟩ (initState .null) rfl rfl).1

theorem c1_counterexample :
    shouldForceSyncFromResponse ⟨.null, .null, sampleHostState⟩ = false
    ∧ Json.stringify (computedNextState ⟨.null, .null, sampleHostState⟩
        ⟨"__cart_merge_unset__", sampleHostState⟩) ≠ "__cart_merge_unset__"
    ∧ (mergeEffect ⟨.null, .null, sampleHostState⟩
        ⟨"__cart_merge_unset__", sampleHostState⟩).2 = false
    ∧ (mergeEffect ⟨.null, .null, sampleHostState⟩
        ⟨"__cart_merge_unset__", sampleHostState⟩).1.marker ≠ "__cart_merge_unset__" := by
  decide

/-- C4 (amended): when forced resync is off, running the merge effect twice
with identical feeds and no intervening edit never publishes on the second
run: the first run leaves the marker equal to the serialization of the state
the second run recomputes (using merge idempotence when the first run
published into the base of the second), so the second computation is
suppressed by the marker comparison.  The wire-contract hypothesis is that
each incoming item has duplicate-free field keys, true of every JavaScript
object. -/
theorem c4_second_merge_suppressed (f : Feeds) (s : EngineState)
    (hforce : shouldForceSyncFromResponse f = false)
    (hwf : ∀ it ∈ incomingItems f.toolInput, ((jsSpreadFields it).map Prod.fst).Nodup) :
    (mergeEffect f (mergeEffect f s).1).2 = false := by
  by_cases h1 : allFeedsNull f = true
  · have he : mergeEffect f s = (s, false) := by simp [mergeEffect, h1]
    rw [he]
    simp [mergeEffect, h1]
  · have h1f : allFeedsNull f = false := by
      cases hb : allFeedsNull f
      · rfl
      · exact absurd hb h1
    cases hser : (Json.stringify (computedNextState f s) == s.marker)
    · cases heq : widgetStateEqual (computedNextState f s) s.cart
      · have he : mergeEffect f s
            = ({ marker := Json.stringify (computedNextState f s),
                 cart := computedNextState f s }, true) := by
          simp [mergeEffect, h1f, hforce, hser, heq]
        rw [he]
        have hnext2 : computedNextState f
            ⟨Json.stringify (computedNextState f s), computedNextState f s⟩
            = computedNextState f s := by
          show mergeNextState (baseStateOf f.widgetState (computedNextState f s))
              (incomingItems f.toolInput) = computedNextState f s
          cases hobj : (truthy f.widgetState && typeofObject f.widgetState)
          · rw [show baseStateOf f.widgetState (computedNextState f s)
                = computedNextState f s by
              simp [baseStateOf, hobj, show isNullJ (computedNextState f s) = false from rfl]]
            exact mergeNextState_idem _ _ hwf
          · rw [show baseStateOf f.widgetState (computedNextState f s) = f.widgetState by
                simp [baseStateOf, hobj]]
            show mergeNextState f.widgetState (incomingItems f.toolInput)
                = mergeNextState (baseStateOf f.widgetState s.cart) (incomingItems f.toolInput)
            rw [show baseStateOf f.widgetState s.cart = f.widgetState by
                simp [baseStateOf, hobj]]
        have hser2 : (Json.stringify (computedNextState f
              ⟨Json.stringify (computedNextState f s), computedNextState f s⟩)
            == Json.stringify (computedNextState f s)) = true := by
          rw [hnext2]
          simp
        simp [mergeEffect, h1f, hforce, hser2]
      · have he : mergeEffect f s
            = ({ marker := Json.stringify (computedNextState f s), cart := s.cart },
               false) := by
          simp [mergeEffect, h1f, hforce, hser, heq]
        rw [he]
        have hc : computedNextState f ⟨Json.stringify (computedNextState f s), s.cart⟩
            = computedNextState f s := rfl
        simp [mergeEffect, h1f, hforce, hc]
    · have he : mergeEffect f s = (s, false) := by
        simp [mergeEffect, h1f, hforce, hser]
      rw [he]
      simp [mergeEffect, h1f, hforce, hser]

theorem c4_second_merge_suppressed_witness :
    (mergeEffect ⟨sampleToolInput, .null, .null⟩
        (mergeEffect ⟨sampleToolInput, .null, .null⟩ (initState .null)).1).2 = false :=
  c4_second_merge_suppressed ⟨sampleToolInput, .null, .null⟩ (initState .null) rfl (by decide)

theorem c4_counterexample :
    (mergeEffect ⟨.null, sampleToolOutput, .null⟩ (initState .null)).2 = true
    ∧ (mergeEffect ⟨.null, sampleToolOutput, .null⟩
        (mergeEffect ⟨.null, sampleToolOutput, .null⟩ (initState .null)).1).2 = true := by
  decide

/-! ## C7: the quantity invariant over all reachable states -/

/-- The Item wire contract (spec section 6): an item is an object with a
non-negative (integer) quantity. -/
def itemWire (it : Json) : Bool := isObjJ it && decide (0 ≤ jsQuantity it)

/-- A state all of whose collection items satisfy the wire contract. -/
def itemsWire (j : Json) : Bool := (stateItems j).all itemWire

theorem qty_of_spread (a b : List (String × Json)) :
    jsQuantity (Json.obj (.ofList (spreadFields a b)))
      = (match lookupField b "quantity" with
         | some v => (match v with | Json.num n => n | _ => 0)
         | none => (match lookupField a "quantity" with
                    | some (.num n) => n
                    | _ => 0)) := by
  rw [jsQuantity_mkObj, lookupField_spreadFields]
  cases lookupField b "quantity" with
  | some v => cases v <;> rfl
  | none => rfl

theorem itemWire_overlay_value (m : JsMap) (k : Json) (item : Json)
    (hm : ∀ v ∈ mapValues m, itemWire v = true) (hitem : itemWire item = true) :
    itemWire (Json.obj (.ofList (spreadFields (optFields (mapGet m k))
      (jsSpreadFields item)))) = true := by
  simp only [itemWire, Bool.and_eq_true, decide_eq_true_eq] at hitem ⊢
  refine ⟨rfl, ?_⟩
  rw [qty_of_spread]
  cases hb : lookupField (jsSpreadFields item) "quantity" with
  | some v =>
      cases v with
      | num n =>
          have hq : jsQuantity item = n := by
            show (match getField item "quantity" with
              | some (.num n2) => n2
              | _ => 0) = n
            rw [getField_obj_eq_lookup_spread item hitem.1, hb]
          exact hq ▸ hitem.2
      | null => exact le_refl 0
      | bool b2 => exact le_refl 0
      | str s2 => exact le_refl 0
      | arr l2 => exact le_refl 0
      | obj fs2 => exact le_refl 0
  | none =>
      cases hget : mapGet m k with
      | none => exact le_refl 0
      | some u =>
          have hu := hm u (mapGet_mem_mapValues m k u hget)
          simp only [itemWire, Bool.and_eq_true, decide_eq_true_eq] at hu
          show (0 : Int) ≤ (match lookupField (optFields (some u)) "quantity" with
            | some (.num n) => n
            | _ => 0)
          rw [show optFields (some u) = jsSpreadFields u from rfl]
          rw [show (match lookupField (jsSpreadFields u) "quantity" with
              | some (.num n) => n
              | _ => 0) = jsQuantity u by
            rw [← getField_obj_eq_lookup_spread u hu.1]
            rfl]
          exact hu.2

theorem values_foldl_baseMapStep_wire (items : List Json) (m : JsMap)
    (hm : ∀ v ∈ mapValues m, itemWire v = true)
    (hi : ∀ it ∈ items, itemWire it = true) :
    ∀ v ∈ mapValues (items.foldl baseMapStep m), itemWire v = true := by
  induction items generalizing m with
  | nil => exact hm
  | cons item tl ih =>
      show ∀ v ∈ mapValues (tl.foldl baseMapStep (baseMapStep m item)), itemWire v = true
      refine ih _ (fun v hv => ?_) (fun it hit => hi it (List.mem_cons_of_mem _ hit))
      cases htr : itemNameTruthy item
      · rw [show baseMapStep m item = m by simp [baseMapStep, htr]] at hv
        exact hm v hv
      · rw [show baseMapStep m item = mapSet m (itemName item) item by
            simp [baseMapStep, htr]] at hv
        rcases mem_mapValues_mapSet m _ _ v hv with hmem | he
        · exact hm v hmem
        · rw [he]
          exact hi item (List.mem_cons_self _ _)

theorem values_overlayMap_wire (incoming : List Json) (m : JsMap)
    (hm : ∀ v ∈ mapValues m, itemWire v = true)
    (hin : ∀ it ∈ incoming, itemWire it = true) :
    ∀ v ∈ mapValues (overlayMap m incoming), itemWire v = true := by
  induction incoming generalizing m with
  | nil => exact hm
  | cons item tl ih =>
      show ∀ v ∈ mapValues (overlayMap (overlayStep m item) tl), itemWire v = true
      refine ih _ (fun v hv => ?_) (fun it hit => hin it (List.mem_cons_of_mem _ hit))
      cases htr : itemNameTruthy item
      · rw [show overlayStep m item = m by simp [overlayStep, htr]] at hv
        exact hm v hv
      · rw [show overlayStep m item
            = mapSet m (itemName item)
                (.obj (.ofList (spreadFields (optFields (mapGet m (itemName item)))
                  (jsSpreadFields item)))) by simp [overlayStep, htr]] at hv
        rcases mem_mapValues_mapSet m _ _ v hv with hmem | he
        · exact hm v hmem
        · rw [he]
          exact itemWire_overlay_value m _ item hm (hin item (List.mem_cons_self _ _))

theorem itemsWire_mergeNextState (b : Json) (incoming : List Json)
    (hb : itemsWire b = true) (hin : ∀ it ∈ incoming, itemWire it = true) :
    itemsWire (mergeNextState b incoming) = true := by
  show (stateItems (mergeNextState b incoming)).all itemWire = true
  rw [stateItems_mergeNextState, List.all_eq_true]
  intro v hv
  refine values_overlayMap_wire incoming (itemsByNameOf (stateItems b)) ?_ ?_ v hv
  · intro u hu
    refine values_foldl_baseMapStep_wire (stateItems b) [] (by simp [mapValues]) ?_ u hu
    exact List.all_eq_true.1 (show (stateItems b).all itemWire = true from hb)
  · exact hin

theorem itemsWire_baseStateOf (w c : Json) (hw : w = .null ∨ itemsWire w = true)
    (hc : itemsWire c = true) : itemsWire (baseStateOf w c) = true := by
  cases hobj : (truthy w && typeofObject w)
  · rw [show baseStateOf w c
        = if isNullJ c then mkObj [("items", mkArr [])] else c by simp [baseStateOf, hobj]]
    by_cases hnc : isNullJ c = true
    · rw [if_pos hnc]
      rfl
    · rw [if_neg hnc]
      exact hc
  · rw [show baseStateOf w c = w by simp [baseStateOf, hobj]]
    rcases hw with rfl | hww
    · simp [truthy] at hobj
    · exact hww

theorem mergeEffect_cart_cases (f : Feeds) (s : EngineState) :
    (mergeEffect f s).1.cart = s.cart
    ∨ (mergeEffect f s).1.cart = computedNextState f s := by
  by_cases h1 : allFeedsNull f = true
  · left
    simp [mergeEffect, h1]
  · have h1f : allFeedsNull f = false := by
      cases hb : allFeedsNull f
      · rfl
      · exact absurd hb h1
    cases hskip : (!shouldForceSyncFromResponse f
        && (Json.stringify (computedNextState f s) == s.marker))
    · cases hpub : (shouldForceSyncFromResponse f
          || !widgetStateEqual (computedNextState f s) s.cart)
      · left
        simp [mergeEffect, h1f, hskip, hpub]
      · right
        simp [mergeEffect, h1f, hskip, hpub]
    · left
      simp [mergeEffect, h1f, hskip]

theorem itemsWire_adjustQuantity (c : Json) (name : String) (delta : Int)
    (hc : itemsWire c = true) : itemsWire (adjustQuantity c name delta) = true := by
  by_cases hg : (name == "" || delta == 0) = true
  · rw [show adjustQuantity c name delta = c by simp [adjustQuantity, hg]]
    exact hc
  · have hgf : (name == "" || delta == 0) = false := by
      cases hb2 : (name == "" || delta == 0)
      · rfl
      · exact absurd hb2 hg
    rw [show adjustQuantity c name delta = adjustQuantityUpdate c name delta by
        simp [adjustQuantity, hgf]]
    by_cases hnull : isNullJ c = true
    · have hcn : c = .null := (isNullJ_eq_true_iff c).1 hnull
      subst hcn
      rfl
    · have hnf : isNullJ c = false := by
        cases hb2 : isNullJ c
        · rfl
        · exact absurd hb2 hnull
      have hbase : editBaseState c = c := by simp [editBaseState, hnf]
      have hall : ∀ v ∈ editItems c, itemWire v = true := by
        intro v hv
        rw [editItems, hbase] at hv
        obtain ⟨it, hit, rfl⟩ := List.mem_map.1 hv
        have hw := List.all_eq_true.1 (show (stateItems c).all itemWire = true from hc) it hit
        have hobj : isObjJ it = true := by
          simp only [itemWire, Bool.and_eq_true] at hw
          exact hw.1
        rw [copyItem_obj it hobj]
        exact hw
      cases hfind : (editItems c).findIdx? (fun item => Json.beq (itemName item) (.str name)) with
      | none =>
          rw [show adjustQuantityUpdate c name delta = editBaseState c by
            simp [adjustQuantityUpdate, hfind]]
          rw [hbase]
          exact hc
      | some idx =>
          by_cases h0 : (nextQuantityOf ((editItems c).getD idx .null) delta == 0) = true
          · simp only [adjustQuantityUpdate, hfind]
            rw [if_pos h0]
            show (stateItems _).all itemWire = true
            rw [stateItems_setKey_obj, List.all_eq_true]
            intro v hv
            exact hall v ((List.eraseIdx_sublist (editItems c) idx).mem hv)
          · have h0f : (nextQuantityOf ((editItems c).getD idx .null) delta == 0) = false := by
              cases hb2 : (nextQuantityOf ((editItems c).getD idx .null) delta == 0)
              · rfl
              · exact absurd hb2 h0
            have hne : ¬ ((nextQuantityOf ((editItems c).getD idx .null) delta == 0) = true) := by
              rw [h0f]
              exact Bool.false_ne_true
            simp only [adjustQuantityUpdate, hfind]
            rw [if_neg hne]
            show (stateItems _).all itemWire = true
            rw [stateItems_setKey_obj, List.all_eq_true]
            intro v hv
            rcases List.mem_or_eq_of_mem_set hv with hmem | he
            · exact hall v hmem
            · rw [he]
              simp only [itemWire, Bool.and_eq_true, decide_eq_true_eq]
              refine ⟨rfl, ?_⟩
              rw [show jsQuantity (Json.obj (.ofList (setKey
                  (jsSpreadFields ((editItems c).getD idx .null)) "quantity"
                  (.num (nextQuantityOf ((editItems c).getD idx .null) delta)))))
                = nextQuantityOf ((editItems c).getD idx .null) delta by
                rw [jsQuantity_mkObj, lookupField_setKey_self]]
              exact le_max_left 0 _

/-- The states an engine instance can reach: the `useWidgetState` initial
state seeded from a host value honouring the data model (null, or a
collection whose items satisfy the wire contract), closed under the merge
effect — with feeds honouring the wire contract: incoming items are
non-negative-quantity objects, and the host state feed replays null or a
contract-conforming collection — and under arbitrary local edits. -/
inductive Reachable : EngineState → Prop where
  | init (w : Json) (hw : w = .null ∨ itemsWire w = true) : Reachable (initState w)
  | merge (f : Feeds) (s : EngineState) (hs : Reachable s)
      (hin : ∀ it ∈ incomingItems f.toolInput, itemWire it = true)
      (hw : f.widgetState = .null ∨ itemsWire f.widgetState = true) :
      Reachable (mergeEffect f s).1
  | edit (name : String) (delta : Int) (s : EngineState) (hs : Reachable s) :
      Reachable { s with cart := adjustQuantity s.cart name delta }

theorem reachable_itemsWire (s : EngineState) (h : Reachable s) :
    itemsWire s.cart = true := by
  induction h with
  | init w hw =>
      show itemsWire (initState w).cart = true
      cases hobj : (truthy w && typeofObject w)
      · rw [show (initState w).cart = mkObj [("items", mkArr [])] by
            simp [initState, hobj]]
        rfl
      · rw [show (initState w).cart = w by simp [initState, hobj]]
        rcases hw with rfl | hww
        · simp [truthy] at hobj
        · exact hww
  | merge f s hs hin hw ih =>
      rcases mergeEffect_cart_cases f s with hcc | hcc
      · rw [hcc]
        exact ih
      · rw [hcc]
        exact itemsWire_mergeNextState _ _ (itemsWire_baseStateOf _ _ hw ih) hin
  | edit name delta s hs ih =>
      show itemsWire (adjustQuantity s.cart name delta) = true
      exact itemsWire_adjustQuantity _ _ _ ih

/-- C7: in every state reachable through any sequence of merges and local
edits — the feeds supplying only wire-contract items, whose quantities are
non-negative — every item of the cart collection has a non-negative
quantity. -/
theorem c7_quantity_invariant (s : EngineState) (h : Reachable s) :
    (stateItems s.cart).all (fun it => decide (0 ≤ jsQuantity it)) = true := by
  have hw := reachable_itemsWire s h
  rw [List.all_eq_true]
  intro it hit
  have hx := List.all_eq_true.1 (show (stateItems s.cart).all itemWire = true from hw) it hit
  simp only [itemWire, Bool.and_eq_true] at hx
  simp [hx.2]

theorem c7_quantity_invariant_witness :
    (stateItems ((mergeEffect ⟨sampleToolInput, .null, .null⟩ (initState .null)).1).cart).all
      (fun it => decide (0 ≤ jsQuantity it)) = true :=
  c7_quantity_invariant _
    (Reachable.merge ⟨sampleToolInput, .null, .null⟩ (initState .null)
      (Reachable.init .null (Or.inl rfl)) (by decide) (Or.inl rfl))

/-! ## C8: serialization failure in the change detector

`JSON.stringify` is total on JSON data but throws a `TypeError` on values
containing a `BigInt`.  To state the spec's serialization-failure behaviour
the value space is extended with such a failing leaf: `JsVal` is `Json` plus
a `bigint` constructor, `JsVal.stringify` returns `none` where
`JSON.stringify` would throw, and `changeDetector` re-embeds the detector
portion of the merge effect (lines 157-171, with `widgetStateEqual` of lines
101-111) over this value space, `none` meaning the exception propagates to
the caller. -/

mutual
inductive JsVal where
  | null
  | bool (b : Bool)
  | num (n : Int)
  | bigint (n : Int)
  | str (s : String)
  | arr (elems : JsValList)
  | obj (fields : JsValFields)

inductive JsValList where
  | nil
  | cons (hd : JsVal) (tl : JsValList)

inductive JsValFields where
  | nil
  | cons (key : String) (val : JsVal) (tl : JsValFields)
end

mutual
def JsVal.stringify : JsVal → Option String
  | .null => some "null"
  | .bool true => some "true"
  | .bool false => some "false"
  | .num n => some (toString n)
  | .bigint _ => none
  | .str s => some (quoteJson s)
  | .arr xs =>
      match JsValList.stringify xs with
      | some s => some ("[" ++ s ++ "]")
      | none => none
  | .obj fs =>
      match JsValFields.stringify fs with
      | some s => some ("\x7b" ++ s ++ "\x7d")
      | none => none

def JsValList.stringify : JsValList → Option String
  | .nil => some ""
  | .cons x .nil => JsVal.stringify x
  | .cons x (.cons y tl) =>
      match JsVal.stringify x, JsValList.stringify (.cons y tl) with
      | some a, some b => some (a ++ "," ++ b)
      | _, _ => none

def JsValFields.stringify : JsValFields → Option String
  | .nil => some ""
  | .cons k v .nil =>
      match JsVal.stringify v with
      | some a => some (quoteJson k ++ ":" ++ a)
      | none => none
  | .cons k v (.cons k2 v2 tl) =>
      match JsVal.stringify v, JsValFields.stringify (.cons k2 v2 tl) with
      | some a, some b => some (quoteJson k ++ ":" ++ a ++ "," ++ b)
      | _, _ => none
end

mutual
/-- A value is JSON-representable when it contains no `bigint` leaf. -/
def JsVal.jsonPure : JsVal → Bool
  | .bigint _ => false
  | .arr xs => JsValList.jsonPure xs
  | .obj fs => JsValFields.jsonPure fs
  | _ => true

def JsValList.jsonPure : JsValList → Bool
  | .nil => true
  | .cons x tl => JsVal.jsonPure x && JsValList.jsonPure tl

def JsValFields.jsonPure : JsValFields → Bool
  | .nil => true
  | .cons _ v tl => JsVal.jsonPure v && JsValFields.jsonPure tl
end

mutual
theorem JsVal.stringify_isSome_of_pure :
    ∀ v : JsVal, JsVal.jsonPure v = true → (JsVal.stringify v).isSome = true
  | .null, _ => rfl
  | .bool true, _ => rfl
  | .bool false, _ => rfl
  | .num n, _ => rfl
  | .bigint n, h => by simp [JsVal.jsonPure] at h
  | .str s, _ => rfl
  | .arr xs, h => by
      have hx := JsValList.stringify_isSome_of_pure_list xs (by simpa [JsVal.jsonPure] using h)
      obtain ⟨s, hs⟩ := Option.isSome_iff_exists.1 hx
      simp [JsVal.stringify, hs]
  | .obj fs, h => by
      have hx := JsValFields.stringify_isSome_of_pure_fields fs (by simpa [JsVal.jsonPure] using h)
      obtain ⟨s, hs⟩ := Option.isSome_iff_exists.1 hx
      simp [JsVal.stringify, hs]

theorem JsValList.stringify_isSome_of_pure_list :
    ∀ l : JsValList, JsValList.jsonPure l = true → (JsValList.stringify l).isSome = true
  | .nil, _ => rfl
  | .cons x .nil, h =>
      JsVal.stringify_isSome_of_pure x (by simpa [JsValList.jsonPure] using h)
  | .cons x (.cons y tl), h => by
      have hp : JsVal.jsonPure x = true ∧ JsValList.jsonPure (.cons y tl) = true := by
        simpa [JsValList.jsonPure, Bool.and_eq_true] using h
      have hx := JsVal.stringify_isSome_of_pure x hp.1
      have ht := JsValList.stringify_isSome_of_pure_list (.cons y tl) hp.2
      obtain ⟨a, ha⟩ := Option.isSome_iff_exists.1 hx
      obtain ⟨b, hb⟩ := Option.isSome_iff_exists.1 ht
      simp [JsValList.stringify, ha, hb]

theorem JsValFields.stringify_isSome_of_pure_fields :
    ∀ fs : JsValFields, JsValFields.jsonPure fs = true → (JsValFields.stringify fs).isSome = true
  | .nil, _ => rfl
  | .cons k v .nil, h => by
      have hx := JsVal.stringify_isSome_of_pure v (by simpa [JsValFields.jsonPure] using h)
      obtain ⟨a, ha⟩ := Option.isSome_iff_exists.1 hx
      simp [JsValFields.stringify, ha]
  | .cons k v (.cons k2 v2 tl), h => by
      have hp : JsVal.jsonPure v = true ∧ JsValFields.jsonPure (.cons k2 v2 tl) = true := by
        simpa [JsValFields.jsonPure, Bool.and_eq_true] using h
      have hx := JsVal.stringify_isSome_of_pure v hp.1
      have ht := JsValFields.stringify_isSome_of_pure_fields (.cons k2 v2 tl) hp.2
      obtain ⟨a, ha⟩ := Option.isSome_iff_exists.1 hx
      obtain ⟨b, hb⟩ := Option.isSome_iff_exists.1 ht
      simp [JsValFields.stringify, ha, hb]
end

def isNullV : JsVal → Bool
  | .null => true
  | _ => false

/-- `widgetStateEqual` (lines 101-111) over the extended value space: a
`JSON.stringify` throw inside the comparison propagates (`none`). -/
def widgetStateEqualV (a b : JsVal) : Option Bool :=
  if isNullV a && isNullV b then some true
  else if isNullV a || isNullV b then some false
  else
    match JsVal.stringify a, JsVal.stringify b with
    | some sa, some sb => some (sa == sb)
    | _, _ => none

/-- The Change Detector (lines 157-171) over the extended value space, given
the computed next state, the current cart and the committed marker: the
result is the new marker and whether a publish happened, or `none` when
`JSON.stringify` throws — the code wraps neither the `JSON.stringify` at
line 157 nor `widgetStateEqual` in any try/catch, so the exception reaches
the caller.  Disjunction short-circuit means a forced resync never evaluates
`widgetStateEqual`. -/
def changeDetector (force : Bool) (nextState cartState : JsVal) (marker : String) :
    Option (String × Bool) :=
  match JsVal.stringify nextState with
  | none => none
  | some serialized =>
      if !force && (serialized == marker) then some (marker, false)
      else if force then some (serialized, true)
      else
        match widgetStateEqualV nextState cartState with
        | none => none
        | some isEq => if !isEq then some (serialized, true) else some (serialized, false)

/-- C8 (amended): the detector does not degrade a serialization failure into
a forced publish — when `JSON.stringify` fails on the computed next state the
exception propagates out of the detector (no publish, no marker update);
within JSON-representable values (every value the host feeds can deliver)
serialization never fails and the detector always returns. -/
theorem c8_serialization_failure (force : Bool) (nextState cartState : JsVal)
    (marker : String) :
    (JsVal.stringify nextState = none → changeDetector force nextState cartState marker = none)
    ∧ (JsVal.jsonPure nextState = true → JsVal.jsonPure cartState = true →
        (changeDetector force nextState cartState marker).isSome = true) := by
  constructor
  · intro h
    simp [changeDetector, h]
  · intro hn hc
    obtain ⟨sn, hsn⟩ :=
      Option.isSome_iff_exists.1 (JsVal.stringify_isSome_of_pure nextState hn)
    obtain ⟨sc, hsc⟩ :=
      Option.isSome_iff_exists.1 (JsVal.stringify_isSome_of_pure cartState hc)
    have heqv : (widgetStateEqualV nextState cartState).isSome = true := by
      simp only [widgetStateEqualV, hsn, hsc]
      split
      · rfl
      · split
        · rfl
        · rfl
    obtain ⟨e, he⟩ := Option.isSome_iff_exists.1 heqv
    simp only [changeDetector, hsn, he]
    by_cases h1 : (!force && (sn == marker)) = true
    · rw [if_pos h1]
      rfl
    · rw [if_neg h1]
      by_cases h2 : force = true
      · rw [if_pos h2]
        rfl
      · rw [if_neg h2]
        by_cases h3 : (!e) = true
        · rw [if_pos h3]
          rfl
        · rw [if_neg h3]
          rfl

theorem c8_serialization_failure_witness :
    (changeDetector false (.obj (.cons "items" (.arr .nil) .nil)) .null
      "__cart_merge_unset__").isSome = true :=
  (c8_serialization_failure false (.obj (.cons "items" (.arr .nil) .nil)) .null
    "__cart_merge_unset__").2 rfl rfl

theorem c8_counterexample :
    JsVal.stringify (.bigint 1) = none
    ∧ changeDetector false (.bigint 1) .null "__cart_merge_unset__" = none :=
  ⟨rfl, rfl⟩
